import Mathlib

/-!
Verification development for the repomix document-assembly and splitting
engine (Python sources under src/repomix).  The Python functions relevant to
the checked claims are shallowly embedded as executable Lean definitions:

* output_split.py      : root-entry grouping, the greedy split loop,
                         per-chunk configuration, UTF-8 byte accounting;
* output_generate.py   : filtered file-tree reconstruction and the
                         section-by-section output assembly;
* config_schema.py     : the configuration dataclasses and the output-style
                         parsing / fallback behaviour;
* token_count_tree.py  : the token count tree builder, the bottom-up sum
                         pass and the threshold-filtered tree formatter;
* repo_processor.py    : the ignore-aware filtered file-tree walker.

Python dicts are modelled as association lists preserving insertion order
(CPython dicts are ordered).  Python exceptions are modelled with Except /
Option.  Python ints are modelled as Int where sign matters and Nat for
counts.  Strings are Lean strings; Python str.replace / str.split for the
single-character separators used by the code are modelled charwise on
String.data, and Python string comparison (code-point lexicographic) is
modelled by strLe below.  Stdlib fnmatch and the injected style renderers
are kept abstract as function parameters, exactly as the code receives them
(generate_output_fn is an injected callable; fnmatch is the Python stdlib).
-/

/-- Models Python str.replace for a single-character pattern, as used by
get_root_entry and build_token_count_tree (replacing a backslash with a
forward slash): a charwise map over the string. -/
def replaceChar (s : String) (oldC newC : Char) : String :=
  String.mk (s.data.map (fun c => if c = oldC then newC else c))

/-- Helper for splitOnChar: split a character list at every occurrence of
the separator.  Always returns a nonempty list, like Python str.split. -/
def splitCharList (sep : Char) : List Char → List (List Char)
  | [] => [[]]
  | c :: rest =>
    let r := splitCharList sep rest
    if c = sep then [] :: r
    else
      match r with
      | [] => [[c]]
      | h :: t => (c :: h) :: t

/-- Models Python str.split for a single-character separator: "".split is
[""], "a//b".split("/") is ["a", "", "b"]. -/
def splitOnChar (sep : Char) (s : String) : List String :=
  (splitCharList sep s.data).map String.mk

/-- Python string comparison on code points (lexicographic), as a boolean
less-or-equal, used to model sorted(..., key=str). -/
def strLe (a b : String) : Bool :=
  charListLe a.data b.data
where charListLe : List Char → List Char → Bool
  | [], _ => true
  | _ :: _, [] => false
  | c :: cs, d :: ds => if c = d then charListLe cs ds else decide (c < d)

/-- Models str.lower as used by the style parser (charwise lower-casing). -/
def strToLower (s : String) : String :=
  String.mk (s.data.map Char.toLower)

/-- get_utf8_byte_length (output_split.py): len(content.encode("utf-8")). -/
def getUtf8ByteLength (content : String) : Nat :=
  content.utf8ByteSize

/-- Sum of the values of a dict modelled as an association list; models
sum(d.values()) in generate_output. -/
def sumValues (m : List (String × Nat)) : Nat :=
  (m.map (fun kv => kv.2)).sum

/-- ProcessedFile (file_types.py): an immutable relative path plus final
content.  Only these two fields are consumed by the embedded code. -/
structure ProcessedFile where
  path : String
  content : String
deriving DecidableEq, Repr

/-! ## Configuration model (config_schema.py) -/

/-- RepomixOutputStyle enumeration. -/
inductive RepomixOutputStyle where
  | plain
  | xml
  | markdown
  | json
deriving DecidableEq, Repr

/-- The RepomixOutputStyle(value) constructor call: succeeds exactly on the
four enum value strings, otherwise raises ValueError (modelled as none). -/
def parseRepomixOutputStyle (s : String) : Option RepomixOutputStyle :=
  if s = "plain" then some RepomixOutputStyle.plain
  else if s = "xml" then some RepomixOutputStyle.xml
  else if s = "markdown" then some RepomixOutputStyle.markdown
  else if s = "json" then some RepomixOutputStyle.json
  else none

/-- RepomixConfigOutput.__post_init__ (config_schema.py lines 75-79) for a
string style value: try RepomixOutputStyle(style.lower()); on ValueError
fall back to markdown instead of raising. -/
def postInitStyleEnum (style : String) : RepomixOutputStyle :=
  match parseRepomixOutputStyle (strToLower style) with
  | some e => e
  | none => RepomixOutputStyle.markdown

/-- RepomixConfigOutput._process_style_value (config_schema.py lines
100-106) for a string value: used when style is assigned after
construction; raises ValueError (here .error carrying the value) on an
unrecognized style instead of falling back. -/
def processStyleValue (s : String) : Except String RepomixOutputStyle :=
  match parseRepomixOutputStyle (strToLower s) with
  | some e => Except.ok e
  | none => Except.error s

/-- RepomixConfigGit. -/
structure RepomixConfigGit where
  sort_by_changes : Bool := true
  sort_by_changes_max_commits : Nat := 100
  include_diffs : Bool := false
  include_logs : Bool := false
  include_logs_count : Nat := 50
deriving DecidableEq, Repr

/-- RepomixConfigInput. -/
structure RepomixConfigInput where
  max_file_size : Nat := 52428800
deriving DecidableEq, Repr

/-- The bool | int | str type of the token_count_tree option. -/
inductive TokenCountTreeValue where
  | ofBool (b : Bool)
  | ofInt (n : Int)
  | ofStr (s : String)
deriving DecidableEq, Repr

/-- RepomixConfigOutput, with every field of the source dataclass and its
default.  The derived style enum is exposed through style_enum below. -/
structure RepomixConfigOutput where
  file_path : String := "repomix-output.md"
  style : String := "markdown"
  header_text : String := ""
  instruction_file_path : String := ""
  remove_comments : Bool := false
  remove_empty_lines : Bool := false
  top_files_length : Nat := 5
  show_line_numbers : Bool := false
  copy_to_clipboard : Bool := false
  include_empty_directories : Bool := false
  calculate_tokens : Bool := false
  show_file_stats : Bool := false
  show_directory_structure : Bool := true
  file_summary : Bool := true
  directory_structure : Bool := true
  files : Bool := true
  parsable_style : Bool := false
  truncate_base64 : Bool := false
  stdout : Bool := false
  include_full_directory_structure : Bool := false
  split_output : Option Int := none
  token_count_tree : TokenCountTreeValue := TokenCountTreeValue.ofBool false
  compress : Bool := false
  git : RepomixConfigGit := {}
  include_diffs : Bool := false
deriving DecidableEq, Repr

/-- The _style_enum attribute computed by __post_init__ from the string
style field (the style field and _style_enum are kept in sync by the
setter, so the enum is a function of the stored string). -/
def RepomixConfigOutput.style_enum (o : RepomixConfigOutput) : RepomixOutputStyle :=
  postInitStyleEnum o.style

/-- RepomixConfigSecurity. -/
structure RepomixConfigSecurity where
  enable_security_check : Bool := true
  exclude_suspicious_files : Bool := true
deriving DecidableEq, Repr

/-- RepomixConfigIgnore. -/
structure RepomixConfigIgnore where
  custom_patterns : List String := []
  use_gitignore : Bool := true
  use_dot_ignore : Bool := true
  use_default_ignore : Bool := true
deriving DecidableEq, Repr

/-- RepomixConfigCompression. -/
structure RepomixConfigCompression where
  enabled : Bool := false
  keep_signatures : Bool := true
  keep_docstrings : Bool := true
  keep_interfaces : Bool := true
deriving DecidableEq, Repr

/-- RepomixConfigTokenCount. -/
structure RepomixConfigTokenCount where
  encoding : String := "o200k_base"
deriving DecidableEq, Repr

/-- RepomixConfigRemote. -/
structure RepomixConfigRemote where
  url : String := ""
  branch : String := ""
deriving DecidableEq, Repr

/-- The str | bool type of the skill_generate option. -/
inductive SkillGenerateValue where
  | ofStr (s : String)
  | ofBool (b : Bool)
deriving DecidableEq, Repr

/-- RepomixConfig, the main configuration dataclass. -/
structure RepomixConfig where
  input : RepomixConfigInput := {}
  output : RepomixConfigOutput := {}
  security : RepomixConfigSecurity := {}
  ignore : RepomixConfigIgnore := {}
  compression : RepomixConfigCompression := {}
  remote : RepomixConfigRemote := {}
  token_count : RepomixConfigTokenCount := {}
  «include» : List String := []
  skill_generate : SkillGenerateValue := SkillGenerateValue.ofBool false
  cwd : String := "."
deriving DecidableEq, Repr

/-! ## Output split data model (output_split.py) -/

/-- OutputSplitGroup: all files sharing the same root entry. -/
structure OutputSplitGroup where
  root_entry : String
  processed_files : List ProcessedFile := []
  all_file_paths : List String := []
deriving DecidableEq, Repr

/-- OutputSplitPart: a single part of split output. -/
structure OutputSplitPart where
  index : Nat
  file_path : String
  content : String
  byte_length : Nat
  groups : List OutputSplitGroup := []
deriving DecidableEq, Repr

/-- get_root_entry: first path segment after normalizing backslashes.
Python list indexing parts[0] is total here because str.split always
returns a nonempty list; headD supplies the same (unreachable) fallback. -/
def getRootEntry (relativeFilePath : String) : String :=
  let normalized := replaceChar relativeFilePath '\\' '/'
  let parts := splitOnChar '/' normalized
  parts.headD normalized

/-- First phase of build_output_split_groups: groups_by_root dict update
for one element of all_file_paths (insertion-ordered dict as assoc list;
a new root entry is appended at the end). -/
def addAllFilePath : List OutputSplitGroup → String → List OutputSplitGroup
  | [], filePath =>
    [{ root_entry := getRootEntry filePath, processed_files := [], all_file_paths := [filePath] }]
  | g :: gs, filePath =>
    if g.root_entry = getRootEntry filePath then
      { g with all_file_paths := g.all_file_paths ++ [filePath] } :: gs
    else
      g :: addAllFilePath gs filePath

/-- Second phase of build_output_split_groups: dict update for one
processed file; a missing root entry is created with the processed file's
path as its only candidate path. -/
def addProcessedFileToGroups : List OutputSplitGroup → ProcessedFile → List OutputSplitGroup
  | [], pf =>
    [{ root_entry := getRootEntry pf.path, processed_files := [pf], all_file_paths := [pf.path] }]
  | g :: gs, pf =>
    if g.root_entry = getRootEntry pf.path then
      { g with processed_files := g.processed_files ++ [pf] } :: gs
    else
      g :: addProcessedFileToGroups gs pf

/-- build_output_split_groups: group candidate paths and processed files by
root entry, then sort by root entry (Python sorted is a stable merge sort
on the string key). -/
def buildOutputSplitGroups (processedFiles : List ProcessedFile) (allFilePaths : List String) :
    List OutputSplitGroup :=
  let afterPaths := allFilePaths.foldl addAllFilePath []
  let afterFiles := processedFiles.foldl addProcessedFileToGroups afterPaths
  afterFiles.mergeSort (fun a b => strLe a.root_entry b.root_entry)

/-- pathlib suffix computation on a file name (character list): the part
from the last dot, provided that dot is neither the first nor the last
character; otherwise empty.  Returns (stem, suffix). -/
def splitExt (nm : List Char) : List Char × List Char :=
  match nm.reverse.findIdx? (fun c => c = '.') with
  | none => (nm, [])
  | some j =>
    let i := nm.length - 1 - j
    if 0 < i ∧ i < nm.length - 1 then (nm.take i, nm.drop i) else (nm, [])

/-- build_split_output_file_path: insert the 1-based part index before the
extension of the base path, or append it when there is no extension. -/
def buildSplitOutputFilePath (baseFilePath : String) (partIndex : Nat) : String :=
  let nm := (splitOnChar '/' baseFilePath).getLastD baseFilePath
  let extChars := (splitExt nm.data).2
  if extChars.isEmpty then
    baseFilePath ++ "." ++ toString partIndex
  else
    let baseWithoutExt := String.mk (baseFilePath.data.take (baseFilePath.data.length - extChars.length))
    baseWithoutExt ++ "." ++ toString partIndex ++ String.mk extChars

/-- make_chunk_config: part 1 keeps the base configuration; later parts get
a deep copy with git diffs/logs disabled (deepcopy is the identity in this
value-semantics model). -/
def makeChunkConfig (baseConfig : RepomixConfig) (partIndex : Nat) : RepomixConfig :=
  if partIndex = 1 then baseConfig
  else
    { baseConfig with
      output := { baseConfig.output with
        git := { baseConfig.output.git with include_diffs := false, include_logs := false } } }

/-! ## Filtered file tree (output_generate.py, build_filtered_file_tree) -/

/-- A node of the nested-dict file tree: a file leaf (the empty-string
marker) or a directory (an insertion-ordered dict of children). -/
inductive FNode where
  | file : FNode
  | dir : List (String × FNode) → FNode
deriving Repr

/-- The nested-dict tree itself is a top-level dict. -/
abbrev FileTreeDict := List (String × FNode)

/-- Dict lookup (first matching key, as in CPython). -/
def lookupFEntry : FileTreeDict → String → Option FNode
  | [], _ => none
  | (k, v) :: rest, key => if k = key then some v else lookupFEntry rest key

/-- Dict assignment: overwrite the first matching key in place, else append
(CPython dicts keep the original position on overwrite). -/
def setFEntry : FileTreeDict → String → FNode → FileTreeDict
  | [], key, v => [(key, v)]
  | (k, w) :: rest, key, v =>
    if k = key then (key, v) :: rest else (k, w) :: setFEntry rest key v

/-- Path(p).parts for the relative POSIX paths handled here: split on the
separator, dropping empty and single-dot components (pathlib collapses
both). -/
def pathParts (p : String) : List String :=
  (splitOnChar '/' p).filter (fun seg => seg ≠ "" ∧ seg ≠ ".")

/-- One file insertion of build_filtered_file_tree: walk/create directory
levels for every non-final component and write the empty-string leaf for
the final one.  Descending through an existing file leaf makes the Python
code index into a str on the next step, raising TypeError: modelled as
none.  An empty component list inserts nothing (the Python loop body never
runs). -/
def insertTreePath : FileTreeDict → List String → Option FileTreeDict
  | tree, [] => some tree
  | tree, [leafName] => some (setFEntry tree leafName FNode.file)
  | tree, part :: rest =>
    match lookupFEntry tree part with
    | none =>
      (insertTreePath [] rest).map (fun sub => tree ++ [(part, FNode.dir sub)])
    | some (FNode.dir sub) =>
      (insertTreePath sub rest).map (fun sub2 => setFEntry tree part (FNode.dir sub2))
    | some FNode.file => none

/-- build_filtered_file_tree: rebuild a display tree from the processed
file paths alone. -/
def buildFilteredFileTree (processedFiles : List ProcessedFile) : Option FileTreeDict :=
  processedFiles.foldlM (fun tree pf => insertTreePath tree (pathParts pf.path)) []

/-- All leaf paths of a tree, as component lists, in tree order. -/
def leafPathsList : FileTreeDict → List (List String)
  | [] => []
  | (k, FNode.file) :: rest => [k] :: leafPathsList rest
  | (k, FNode.dir sub) :: rest => (leafPathsList sub).map (fun q => k :: q) ++ leafPathsList rest

/-! ## Output generation (output_generate.py) -/

/-- GitDiffResult (git_diff_handle.py): the two opaque diff text blocks
consumed by generate_output. -/
structure GitDiffResult where
  work_tree_diff_content : String := ""
  staged_diff_content : String := ""
deriving DecidableEq, Repr

/-- GitLogResult (git_log_handle.py): the commit list consumed by
generate_output; commits are opaque to the embedded code. -/
structure GitLogResult where
  commits : List String := []
deriving DecidableEq, Repr

/-- Python exceptions that can escape the embedded rendering path. -/
inductive RenderError where
  | treeConflict : RenderError
  | jsonKwargsTypeError : RenderError
deriving DecidableEq, Repr

/-- The ordered-section interface of an output style object
(output_style_decorate.py; the concrete plain/markdown/xml renderers are
injected, so they stay abstract here). -/
structure OutputStyleFns where
  generate_header : String
  generate_file_tree_section : FileTreeDict → String
  generate_files_section : List ProcessedFile → List (String × Nat) → List (String × Nat) → String
  generate_git_diff_section : String → String → String
  generate_git_log_section : List String → String
  generate_statistics : Nat → Nat → Nat → String
  generate_footer : String

/-- generate_output (output_generate.py lines 45-128).  Totals are the sums
over the whole per-file count maps.  The display tree is either the tree
passed in (full mode) or rebuilt from the processed files (filtered mode).
The JSON branch is modelled as raising TypeError: generate_output passes
git_diff_result / git_log_result keyword arguments (lines 90-91) that
JsonStyle.generate_json_output does not accept (json_style.py lines
49-58).  For the other styles the sections are concatenated in source
order; the style map covers every enum value, so the unknown-style
fallback (lines 96-100) is unreachable and not modelled. -/
def generateOutput (styles : RepomixOutputStyle → OutputStyleFns)
    (processedFiles : List ProcessedFile) (config : RepomixConfig)
    (fileCharCounts fileTokenCounts : List (String × Nat)) (fileTree : FileTreeDict)
    (gitDiffResult : Option GitDiffResult) (gitLogResult : Option GitLogResult) :
    Except RenderError String :=
  let totalChars := sumValues fileCharCounts
  let totalTokens := if config.output.calculate_tokens then sumValues fileTokenCounts else 0
  let displayTree? :=
    if config.output.include_full_directory_structure then some fileTree
    else buildFilteredFileTree processedFiles
  match displayTree? with
  | none => Except.error RenderError.treeConflict
  | some displayTree =>
    if config.output.style_enum = RepomixOutputStyle.json then
      Except.error RenderError.jsonKwargsTypeError
    else
      let style := styles config.output.style_enum
      let treeSection :=
        if config.output.show_directory_structure then style.generate_file_tree_section displayTree
        else ""
      let diffSection :=
        if config.output.git.include_diffs then
          match gitDiffResult with
          | some d => style.generate_git_diff_section d.work_tree_diff_content d.staged_diff_content
          | none => ""
        else ""
      let logSection :=
        if config.output.git.include_logs then
          match gitLogResult with
          | some l => style.generate_git_log_section l.commits
          | none => ""
        else ""
      Except.ok (style.generate_header
        ++ treeSection
        ++ style.generate_files_section processedFiles fileCharCounts fileTokenCounts
        ++ diffSection
        ++ logSection
        ++ style.generate_statistics processedFiles.length totalChars totalTokens
        ++ style.generate_footer)

/-! ## The split loop (output_split.py, generate_split_output_parts) -/

/-- Errors raised by generate_split_output_parts: the invalid-limit
ValueError, the size-exceeded ValueError carrying the offending root entry
with the measured size and the limit, and any exception propagating out of
the injected renderer. -/
inductive SplitError where
  | invalidMaxBytes (maxBytes : Int) : SplitError
  | sizeExceeded (rootEntry : String) (sizeBytes : Nat) (limitBytes : Int) : SplitError
  | renderError (e : RenderError) : SplitError
deriving DecidableEq, Repr

/-- render_groups (the closure inside generate_split_output_parts): gather
the chunk's processed files, derive the per-chunk configuration, rebuild
the chunk file tree, and call the injected generate_output_fn, passing the
git diff/log data only for part 1. -/
def renderSplitGroups
    (genOutputFn : List ProcessedFile → RepomixConfig → List (String × Nat) →
      List (String × Nat) → FileTreeDict → Option GitDiffResult → Option GitLogResult →
      Except RenderError String)
    (baseConfig : RepomixConfig) (fileCharCounts fileTokenCounts : List (String × Nat))
    (gitDiffResult : Option GitDiffResult) (gitLogResult : Option GitLogResult)
    (groupsToRender : List OutputSplitGroup) (partIndex : Nat) : Except RenderError String :=
  let chunkProcessedFiles := groupsToRender.flatMap (fun g => g.processed_files)
  let chunkConfig := makeChunkConfig baseConfig partIndex
  match buildFilteredFileTree chunkProcessedFiles with
  | none => Except.error RenderError.treeConflict
  | some fileTree =>
    genOutputFn chunkProcessedFiles chunkConfig fileCharCounts fileTokenCounts fileTree
      (if partIndex = 1 then gitDiffResult else none)
      (if partIndex = 1 then gitLogResult else none)

/-- The greedy accumulation loop of generate_split_output_parts (lines
198-262), with the loop state (finished parts, current batch, its rendered
content and byte length) made explicit. -/
def splitLoop (render : List OutputSplitGroup → Nat → Except RenderError String)
    (maxBytesPerPart : Int) (baseFilePath : String) :
    List OutputSplitGroup → List OutputSplitPart → List OutputSplitGroup → String → Nat →
    Except SplitError (List OutputSplitPart)
  | [], parts, currentGroups, currentContent, currentBytes =>
    if currentGroups.isEmpty then Except.ok parts
    else
      let finalIndex := parts.length + 1
      let finalPart : OutputSplitPart :=
        { index := finalIndex, file_path := buildSplitOutputFilePath baseFilePath finalIndex,
          content := currentContent, byte_length := currentBytes, groups := currentGroups }
      Except.ok (parts ++ [finalPart])
  | group :: restGroups, parts, currentGroups, currentContent, currentBytes =>
    let partIndex := parts.length + 1
    let nextGroups := currentGroups ++ [group]
    match render nextGroups partIndex with
    | Except.error e => Except.error (SplitError.renderError e)
    | Except.ok nextContent =>
      let nextBytes := getUtf8ByteLength nextContent
      if (nextBytes : Int) ≤ maxBytesPerPart then
        splitLoop render maxBytesPerPart baseFilePath restGroups parts nextGroups nextContent nextBytes
      else if currentGroups.isEmpty then
        Except.error (SplitError.sizeExceeded group.root_entry nextBytes maxBytesPerPart)
      else
        let donePart : OutputSplitPart :=
          { index := partIndex, file_path := buildSplitOutputFilePath baseFilePath partIndex,
            content := currentContent, byte_length := currentBytes, groups := currentGroups }
        let newParts := parts ++ [donePart]
        let newPartIndex := newParts.length + 1
        match render [group] newPartIndex with
        | Except.error e => Except.error (SplitError.renderError e)
        | Except.ok singleGroupContent =>
          let singleGroupBytes := getUtf8ByteLength singleGroupContent
          if maxBytesPerPart < (singleGroupBytes : Int) then
            Except.error (SplitError.sizeExceeded group.root_entry singleGroupBytes maxBytesPerPart)
          else
            splitLoop render maxBytesPerPart baseFilePath restGroups newParts [group]
              singleGroupContent singleGroupBytes

/-- generate_split_output_parts: validate the limit, build the groups,
return no parts for no groups, otherwise run the greedy loop from the
empty state. -/
def generateSplitOutputParts
    (genOutputFn : List ProcessedFile → RepomixConfig → List (String × Nat) →
      List (String × Nat) → FileTreeDict → Option GitDiffResult → Option GitLogResult →
      Except RenderError String)
    (processedFiles : List ProcessedFile) (allFilePaths : List String)
    (maxBytesPerPart : Int) (baseConfig : RepomixConfig)
    (fileCharCounts fileTokenCounts : List (String × Nat))
    (gitDiffResult : Option GitDiffResult) (gitLogResult : Option GitLogResult) :
    Except SplitError (List OutputSplitPart) :=
  if maxBytesPerPart ≤ 0 then Except.error (SplitError.invalidMaxBytes maxBytesPerPart)
  else
    let groups := buildOutputSplitGroups processedFiles allFilePaths
    if groups.isEmpty then Except.ok []
    else
      splitLoop
        (renderSplitGroups genOutputFn baseConfig fileCharCounts fileTokenCounts
          gitDiffResult gitLogResult)
        maxBytesPerPart baseConfig.output.file_path groups [] [] "" 0

/-! ## Token count tree (token_count_tree.py) -/

/-- FileTokenInfo: token information for a single file name. -/
structure FileTokenInfo where
  name : String
  tokens : Int
deriving DecidableEq, Repr

/-- FileWithTokens: file path with token count. -/
structure FileWithTokens where
  path : String
  tokens : Int
deriving DecidableEq, Repr

/-- TreeNode: files stored directly at the node, the node's token sum, and
the insertion-ordered children dict. -/
inductive TreeNode where
  | mk (files : List FileTokenInfo) (token_sum : Int) (children : List (String × TreeNode))

/-- The files stored directly at a node. -/
def TreeNode.files : TreeNode → List FileTokenInfo
  | TreeNode.mk fs _ _ => fs

/-- The node's token sum. -/
def TreeNode.token_sum : TreeNode → Int
  | TreeNode.mk _ s _ => s

/-- The node's children dict. -/
def TreeNode.children : TreeNode → List (String × TreeNode)
  | TreeNode.mk _ _ ch => ch

/-- TreeNode() constructor: no files, zero sum, no children. -/
def emptyTreeNode : TreeNode := TreeNode.mk [] 0 []

/-- Children dict lookup (part in current.children). -/
def lookupChild : List (String × TreeNode) → String → Option TreeNode
  | [], _ => none
  | (k, v) :: rest, key => if k = key then some v else lookupChild rest key

/-- Children dict assignment: overwrite in place or append. -/
def setChild : List (String × TreeNode) → String → TreeNode → List (String × TreeNode)
  | [], key, v => [(key, v)]
  | (k, w) :: rest, key, v =>
    if k = key then (key, v) :: rest else (k, w) :: setChild rest key v

/-- The directory walk of build_token_count_tree for one file: create
missing levels for every directory component, then append the file info at
the final node. -/
def insertTokenFile : TreeNode → List String → FileTokenInfo → TreeNode
  | TreeNode.mk fs s ch, [], info => TreeNode.mk (fs ++ [info]) s ch
  | TreeNode.mk fs s ch, part :: rest, info =>
    match lookupChild ch part with
    | some child => TreeNode.mk fs s (setChild ch part (insertTokenFile child rest info))
    | none => TreeNode.mk fs s (ch ++ [(part, insertTokenFile emptyTreeNode rest info)])

/-- One iteration of the build loop: skip empty paths and empty final
segments, split on forward slashes after backslash normalization, pop the
final segment as the file name, and insert. -/
def addFileWithTokens (root : TreeNode) (file : FileWithTokens) : TreeNode :=
  if file.path = "" then root
  else
    let parts := splitOnChar '/' (replaceChar file.path '\\' '/')
    let fileName := parts.getLastD file.path
    let dirs := parts.dropLast
    if fileName = "" then root
    else insertTokenFile root dirs { name := fileName, tokens := file.tokens }

/-- Sum of the token_sum fields of a children dict. -/
def childrenSumTotal (ch : List (String × TreeNode)) : Int :=
  (ch.map (fun c => c.2.token_sum)).sum

/-- _calculate_token_sums: recompute every node's token_sum bottom-up as
the sum of its own files' tokens plus the recursively computed totals of
its children. -/
def calcTokenSums : TreeNode → TreeNode
  | TreeNode.mk fs _ ch =>
    let newCh := calcChildren ch
    TreeNode.mk fs ((fs.map (fun f => f.tokens)).sum + childrenSumTotal newCh) newCh
where calcChildren : List (String × TreeNode) → List (String × TreeNode)
  | [] => []
  | (k, c) :: rest => (k, calcTokenSums c) :: calcChildren rest

/-- build_token_count_tree: insert every file, then run the sum pass. -/
def buildTokenCountTree (filesWithTokens : List FileWithTokens) : TreeNode :=
  calcTokenSums (filesWithTokens.foldl addFileWithTokens emptyTreeNode)

/-- The token tree sum invariant, at a node and recursively below it:
token_sum equals the sum of the node's own file tokens plus the children's
token sums. -/
def sumInvariant : TreeNode → Prop
  | TreeNode.mk fs s ch =>
    (s = (fs.map (fun f => f.tokens)).sum + childrenSumTotal ch) ∧ sumInvariantChildren ch
where sumInvariantChildren : List (String × TreeNode) → Prop
  | [] => True
  | (_, c) :: rest => sumInvariant c ∧ sumInvariantChildren rest

/-- All file infos stored anywhere in the subtree. -/
def treeFilesAll : TreeNode → List FileTokenInfo
  | TreeNode.mk fs _ ch => fs ++ treeFilesAllChildren ch
where treeFilesAllChildren : List (String × TreeNode) → List FileTokenInfo
  | [] => []
  | (_, c) :: rest => treeFilesAll c ++ treeFilesAllChildren rest

/-- All named directory nodes anywhere in the subtree. -/
def treeDirsAll : TreeNode → List (String × TreeNode)
  | TreeNode.mk _ _ ch => ch ++ treeDirsAllChildren ch
where treeDirsAllChildren : List (String × TreeNode) → List (String × TreeNode)
  | [] => []
  | (_, c) :: rest => treeDirsAll c ++ treeDirsAllChildren rest

/-- Total of all file tokens in the subtree (the value the sum pass assigns
to the node). -/
def treeTokensTotal : TreeNode → Int
  | TreeNode.mk fs _ ch => (fs.map (fun f => f.tokens)).sum + treeTokensTotalChildren ch
where treeTokensTotalChildren : List (String × TreeNode) → Int
  | [] => 0
  | (_, c) :: rest => treeTokensTotal c + treeTokensTotalChildren rest

/-! ## Token tree formatting (format_token_count_tree) -/

/-- Insert a comma after every third digit, on a reversed digit list. -/
def insertCommasRev (ds : List Char) : List Char :=
  if _h : ds.length ≤ 3 then ds
  else ds.take 3 ++ ',' :: insertCommasRev (ds.drop 3)
termination_by ds.length
decreasing_by
  simp only [List.length_drop]
  omega

/-- Python format(n, ",") for integers: thousands separators every three
digits, with a leading minus sign for negatives. -/
def formatIntComma (n : Int) : String :=
  let digits := (toString n.natAbs).data
  let grouped := (insertCommasRev digits.reverse).reverse
  (if n < 0 then "-" else "") ++ String.mk grouped

/-- The f-string token annotation "({count:,} tokens)". -/
def mkTokenInfoStr (n : Int) : String :=
  "(" ++ formatIntComma n ++ " tokens)"

/-- Shape of one rendered file line. -/
def mkFileLine (pr cn name : String) (tokens : Int) : String :=
  pr ++ cn ++ name ++ " " ++ mkTokenInfoStr tokens

/-- Shape of one rendered directory line. -/
def mkDirLine (pr cn name : String) (tokens : Int) : String :=
  pr ++ cn ++ name ++ "/ " ++ mkTokenInfoStr tokens

/-- The message shown at the root when a positive threshold hides
everything. -/
def noEntriesMessage (m : Int) : String :=
  "No files or directories found with " ++ toString m ++ "+ tokens."

/-- "\n".join. -/
def joinLines : List String → String
  | [] => ""
  | [line] => line
  | line :: rest => line ++ "\n" ++ joinLines rest

/-- The filtered and name-sorted child directory entries displayed at a
node (format_token_count_tree lines 116 and 122). -/
def displayEntries (minTokenCount : Int) (node : TreeNode) : List (String × TreeNode) :=
  (node.children.filter (fun c => decide (minTokenCount ≤ c.2.token_sum))).mergeSort
    (fun a b => strLe a.1 b.1)

/-- The filtered and name-sorted files displayed at a node
(format_token_count_tree lines 119 and 123). -/
def displayFiles (minTokenCount : Int) (node : TreeNode) : List FileTokenInfo :=
  (node.files.filter (fun f => decide (minTokenCount ≤ f.tokens))).mergeSort
    (fun a b => strLe a.name b.name)

/-- The file lines of one node (format_token_count_tree lines 126-134):
the last-file connector is used when the file is last and there are no
directory entries, and the root level with an empty running indent omits
the indent. -/
def renderFileLines (pref : String) (isRoot : Bool) (entriesEmpty : Bool) :
    List FileTokenInfo → List String
  | [] => []
  | f :: rest =>
    let isLastFile := rest.isEmpty && entriesEmpty
    let connector := if isLastFile then "└── " else "├── "
    let line :=
      if isRoot && pref = "" then connector ++ f.name ++ " " ++ mkTokenInfoStr f.tokens
      else pref ++ connector ++ f.name ++ " " ++ mkTokenInfoStr f.tokens
    line :: renderFileLines pref isRoot entriesEmpty rest

/-- format_token_count_tree (token_count_tree.py lines 96-164), returning
the joined string exactly as the source does: the lines list holds the
file lines, then for each displayed directory its line followed by the
recursively formatted (already joined) child block when that block is
nonempty, then the root-level empty message; the list is joined with
newlines. -/
def formatTokenCountTree (node : TreeNode) (minTokenCount : Int) (pref : String)
    (isRoot : Bool) : String :=
  let entries := displayEntries minTokenCount node
  let files := displayFiles minTokenCount node
  let fileLines := renderFileLines pref isRoot entries.isEmpty files
  let dirPieces := entries.enum.attach.flatMap (fun x =>
    let i := x.1.1
    let name := x.1.2.1
    let childNode := x.1.2.2
    let isLastEntry := i = entries.length - 1
    let connector := if isLastEntry then "└── " else "├── "
    let line :=
      if isRoot && pref = "" then connector ++ name ++ "/ " ++ mkTokenInfoStr childNode.token_sum
      else pref ++ connector ++ name ++ "/ " ++ mkTokenInfoStr childNode.token_sum
    let childPref :=
      if isRoot && pref = "" then (if isLastEntry then "    " else "│   ")
      else pref ++ (if isLastEntry then "    " else "│   ")
    let childOutput := formatTokenCountTree childNode minTokenCount childPref false
    line :: (if childOutput = "" then [] else [childOutput]))
  let msgPiece :=
    if isRoot && files.length = 0 && entries.length = 0 then
      [if 0 < minTokenCount then noEntriesMessage minTokenCount else "No files found."]
    else []
  joinLines (fileLines ++ dirPieces ++ msgPiece)
termination_by sizeOf node
decreasing_by
  have hmem : x.1.2 ∈ displayEntries minTokenCount node :=
    List.snd_mem_of_mem_enum x.2
  have hch : x.1.2 ∈ node.children :=
    (List.mem_filter.mp (List.mem_mergeSort.mp hmem)).1
  have hlt : sizeOf x.1.2 < sizeOf node.children := List.sizeOf_lt_of_mem hch
  have hsnd : sizeOf x.1.2.2 ≤ sizeOf x.1.2 := by
    obtain ⟨a, b⟩ := x.1.2
    simp
  have hnode : sizeOf node.children < sizeOf node := by
    cases node with
    | mk fs s ch => simp [TreeNode.children]
  omega

/-- The same recursion as formatTokenCountTree, but returning the flat
line list (each displayed directory's child block spliced inline rather
than pre-joined); used to state per-line properties of the rendering. -/
def formatLines (node : TreeNode) (minTokenCount : Int) (pref : String)
    (isRoot : Bool) : List String :=
  let entries := displayEntries minTokenCount node
  let files := displayFiles minTokenCount node
  let fileLines := renderFileLines pref isRoot entries.isEmpty files
  let dirLines := entries.enum.attach.flatMap (fun x =>
    let i := x.1.1
    let name := x.1.2.1
    let childNode := x.1.2.2
    let isLastEntry := i = entries.length - 1
    let connector := if isLastEntry then "└── " else "├── "
    let line :=
      if isRoot && pref = "" then connector ++ name ++ "/ " ++ mkTokenInfoStr childNode.token_sum
      else pref ++ connector ++ name ++ "/ " ++ mkTokenInfoStr childNode.token_sum
    let childPref :=
      if isRoot && pref = "" then (if isLastEntry then "    " else "│   ")
      else pref ++ (if isLastEntry then "    " else "│   ")
    line :: formatLines childNode minTokenCount childPref false)
  let msgPiece :=
    if isRoot && files.length = 0 && entries.length = 0 then
      [if 0 < minTokenCount then noEntriesMessage minTokenCount else "No files found."]
    else []
  fileLines ++ dirLines ++ msgPiece
termination_by sizeOf node
decreasing_by
  have hmem : x.1.2 ∈ displayEntries minTokenCount node :=
    List.snd_mem_of_mem_enum x.2
  have hch : x.1.2 ∈ node.children :=
    (List.mem_filter.mp (List.mem_mergeSort.mp hmem)).1
  have hlt : sizeOf x.1.2 < sizeOf node.children := List.sizeOf_lt_of_mem hch
  have hsnd : sizeOf x.1.2.2 ≤ sizeOf x.1.2 := by
    obtain ⟨a, b⟩ := x.1.2
    simp
  have hnode : sizeOf node.children < sizeOf node := by
    cases node with
    | mk fs s ch => simp [TreeNode.children]
  omega

/-! ## Filtered tree walk (repo_processor.py) -/

/-- A modelled filesystem entry: a file or a directory with its listed
entries, in iteration order. -/
inductive FSNode where
  | file (name : String) : FSNode
  | dir (name : String) (entries : List FSNode) : FSNode
deriving Repr

/-- str.startswith, charwise. -/
def strStartsWith (s t : String) : Bool :=
  t.data.isPrefixOf s.data

/-- str.endswith, charwise. -/
def strEndsWith (s t : String) : Bool :=
  t.data.reverse.isPrefixOf s.data.reverse

/-- str.strip for whitespace, charwise. -/
def strStrip (s : String) : String :=
  String.mk (((s.data.dropWhile Char.isWhitespace).reverse.dropWhile Char.isWhitespace).reverse)

/-- path.relative_to(base_dir).as_posix() for a child of the directory
whose own relative path is relPref: the walk root itself has relPref "". -/
def childRelPath (relPref name : String) : String :=
  if relPref = "" then name else relPref ++ "/" ++ name

/-- _build_file_tree_super_optimized (repo_processor.py lines 131-207).
The filesystem walk is modelled on FSNode lists; cached_fnmatch (a wrapper
over the Python stdlib fnmatch) is the abstract parameter fnmatchFn, and
relPref carries the directory's path relative to the walk root.  Unreadable
directories and per-entry exceptions are outside this functional model.
Note the empty-subtree drop: a surviving directory whose subtree is empty
is simply not added. -/
def buildFileTreeSuperOptimized (fnmatchFn : String → String → Bool)
    (dirExactMatches : List String) (dirPatterns filePatterns : List String)
    (relPref : String) : List FSNode → FileTreeDict
  | [] => []
  | FSNode.dir name sub :: rest =>
    if dirExactMatches.contains name then
      buildFileTreeSuperOptimized fnmatchFn dirExactMatches dirPatterns filePatterns relPref rest
    else if strStartsWith name "." && [".git", ".svn", ".hg", ".cache"].contains name then
      buildFileTreeSuperOptimized fnmatchFn dirExactMatches dirPatterns filePatterns relPref rest
    else
      let relPath := childRelPath relPref name
      if dirPatterns.any (fun p => fnmatchFn relPath p) then
        buildFileTreeSuperOptimized fnmatchFn dirExactMatches dirPatterns filePatterns relPref rest
      else
        let subtree := buildFileTreeSuperOptimized fnmatchFn dirExactMatches dirPatterns filePatterns relPath sub
        if subtree.isEmpty then
          buildFileTreeSuperOptimized fnmatchFn dirExactMatches dirPatterns filePatterns relPref rest
        else
          (name, FNode.dir subtree) ::
            buildFileTreeSuperOptimized fnmatchFn dirExactMatches dirPatterns filePatterns relPref rest
  | FSNode.file name :: rest =>
    if [".pyc", ".pyo", ".class", ".o", ".so", ".dll"].any (fun e => strEndsWith name e) then
      buildFileTreeSuperOptimized fnmatchFn dirExactMatches dirPatterns filePatterns relPref rest
    else if filePatterns.isEmpty then
      (name, FNode.file) ::
        buildFileTreeSuperOptimized fnmatchFn dirExactMatches dirPatterns filePatterns relPref rest
    else
      let relPath := childRelPath relPref name
      if filePatterns.any (fun p => fnmatchFn relPath p) then
        buildFileTreeSuperOptimized fnmatchFn dirExactMatches dirPatterns filePatterns relPref rest
      else
        (name, FNode.file) ::
          buildFileTreeSuperOptimized fnmatchFn dirExactMatches dirPatterns filePatterns relPref rest

/-- The hard-coded common ignore directory names added to the exact-match
set by build_file_tree_with_ignore. -/
def commonIgnores : List String :=
  ["node_modules", ".git", "__pycache__", ".pytest_cache", "venv", ".venv", "env", ".env",
   "build", "dist", ".idea", ".vscode", "logs", "tmp", "cache"]

/-- The pattern partitioning step of build_file_tree_with_ignore (lines
106-123): normalize and strip a pattern, then classify it into exact
directory names, directory patterns, or file patterns (a bare file pattern
is also checked as a directory pattern).  The Python sets are modelled as
lists; only membership is consumed. -/
def classifyIgnorePattern (acc : List String × List String × List String) (pat0 : String) :
    List String × List String × List String :=
  let de := acc.1
  let dp := acc.2.1
  let fp := acc.2.2
  let pat := strStrip (replaceChar pat0 '\\' '/')
  if pat = "" then acc
  else if !(pat.data.contains '/') && !(pat.data.contains '*') && !(pat.data.contains '[') then
    (de ++ [pat], dp, fp)
  else if strEndsWith pat "/" then
    let clean := String.mk pat.data.dropLast
    if !(clean.data.contains '/') && !(clean.data.contains '*') && !(clean.data.contains '[') then
      (de ++ [clean], dp, fp)
    else (de, dp ++ [clean], fp)
  else (de, dp ++ [pat], fp ++ [pat])

/-- build_file_tree_with_ignore (repo_processor.py lines 78-128): partition
the resolved ignore patterns, add the common ignores to the exact-match
set, and run the optimized walk from the root.  The resolved pattern list
(produced by get_ignore_patterns in the file-search module) is taken as a
parameter.  The configuration is consumed only through those patterns: in
particular include_empty_directories is never consulted. -/
def buildFileTreeWithIgnore (fnmatchFn : String → String → Bool)
    (ignorePatterns : List String) (rootEntries : List FSNode) : FileTreeDict :=
  let parts := ignorePatterns.foldl classifyIgnorePattern ([], [], [])
  buildFileTreeSuperOptimized fnmatchFn (parts.1 ++ commonIgnores) parts.2.1 parts.2.2 ""
    rootEntries

/-- No directory node anywhere in a tree dict is empty. -/
def hasNoEmptyDir : FileTreeDict → Bool
  | [] => true
  | (_, FNode.file) :: rest => hasNoEmptyDir rest
  | (_, FNode.dir sub) :: rest => !sub.isEmpty && hasNoEmptyDir sub && hasNoEmptyDir rest

/-! ## Loop specification predicates -/

/-- Per-part correctness facts maintained by the split loop: the stored
byte length is the UTF-8 length of the stored content, it is within the
limit, the content was produced by rendering exactly the part's groups at
the part's index, and the destination path is derived from the base path
and the index. -/
def SplitPartOk (render : List OutputSplitGroup → Nat → Except RenderError String)
    (maxBytesPerPart : Int) (baseFilePath : String) (p : OutputSplitPart) : Prop :=
  p.byte_length = getUtf8ByteLength p.content ∧
  (p.byte_length : Int) ≤ maxBytesPerPart ∧
  render p.groups p.index = Except.ok p.content ∧
  p.file_path = buildSplitOutputFilePath baseFilePath p.index

theorem splitLoop_ok_spec
    (render : List OutputSplitGroup → Nat → Except RenderError String)
    (maxBytesPerPart : Int) (baseFilePath : String) (gs : List OutputSplitGroup) :
    ∀ (parts : List OutputSplitPart) (cur : List OutputSplitGroup)
      (curContent : String) (curBytes : Nat),
    (∀ p ∈ parts, SplitPartOk render maxBytesPerPart baseFilePath p) →
    parts.map (fun p => p.index) = List.range' 1 parts.length →
    (cur ≠ [] → curBytes = getUtf8ByteLength curContent ∧ (curBytes : Int) ≤ maxBytesPerPart ∧
      render cur (parts.length + 1) = Except.ok curContent) →
    ∀ res, splitLoop render maxBytesPerPart baseFilePath gs parts cur curContent curBytes =
        Except.ok res →
      (∀ p ∈ res, SplitPartOk render maxBytesPerPart baseFilePath p) ∧
      res.map (fun p => p.index) = List.range' 1 res.length ∧
      res.flatMap (fun p => p.groups) = parts.flatMap (fun p => p.groups) ++ cur ++ gs := by
  induction gs with
  | nil =>
    intro parts cur curContent curBytes hparts hidx hcur res hres
    by_cases hc : cur.isEmpty
    · simp only [splitLoop, hc, if_true] at hres
      cases hres
      refine ⟨hparts, hidx, ?_⟩
      simp [List.isEmpty_iff.mp hc]
    · simp only [splitLoop, hc, if_false] at hres
      cases hres
      obtain ⟨hb, hle, hr⟩ := hcur (by simpa using List.isEmpty_iff.not.mp hc)
      refine ⟨?_, ?_, ?_⟩
      · intro p hp
        rcases List.mem_append.mp hp with h | h
        · exact hparts p h
        · rcases List.mem_singleton.mp h with rfl
          exact ⟨hb, hle, hr, rfl⟩
      · simp only [List.map_append, List.length_append, hidx]
        simp [List.range'_concat, Nat.add_comm]
      · simp
  | cons group restGroups ih =>
    intro parts cur curContent curBytes hparts hidx hcur res hres
    simp only [splitLoop] at hres
    split at hres
    next e heq => simp at hres
    next nextContent heq =>
      split at hres
      case isTrue hfit =>
        have := ih parts (cur ++ [group]) nextContent (getUtf8ByteLength nextContent)
          hparts hidx (fun _ => ⟨rfl, hfit, heq⟩) res hres
        refine ⟨this.1, this.2.1, ?_⟩
        rw [this.2.2]
        simp
      case isFalse hfit =>
        split at hres
        case isTrue hce => simp at hres
        case isFalse hce =>
          split at hres
          next e heq2 => simp at hres
          next singleGroupContent heq2 =>
            split at hres
            case isTrue hbig => simp at hres
            case isFalse hbig =>
              obtain ⟨hb, hle, hrc⟩ := hcur (by simpa using List.isEmpty_iff.not.mp hce)
              have := ih _ [group] singleGroupContent (getUtf8ByteLength singleGroupContent)
                (by
                  intro p hp
                  rcases List.mem_append.mp hp with h | h
                  · exact hparts p h
                  · rcases List.mem_singleton.mp h with rfl
                    exact ⟨hb, hle, hrc, rfl⟩)
                (by
                  simp only [List.map_append, List.length_append, hidx]
                  simp [List.range'_concat, Nat.add_comm])
                (fun _ => ⟨rfl, not_lt.mp hbig, heq2⟩)
                res hres
              refine ⟨this.1, this.2.1, ?_⟩
              rw [this.2.2]
              simp

theorem splitLoop_sizeExceeded_spec
    (render : List OutputSplitGroup → Nat → Except RenderError String)
    (maxBytesPerPart : Int) (baseFilePath : String) (gs : List OutputSplitGroup) :
    ∀ (parts : List OutputSplitPart) (cur : List OutputSplitGroup)
      (curContent : String) (curBytes : Nat) (rootEntry : String) (sizeBytes : Nat)
      (limitBytes : Int),
    splitLoop render maxBytesPerPart baseFilePath gs parts cur curContent curBytes =
        Except.error (SplitError.sizeExceeded rootEntry sizeBytes limitBytes) →
    (cur = [] → parts = []) →
      limitBytes = maxBytesPerPart ∧ maxBytesPerPart < (sizeBytes : Int) ∧
      ∃ g ∈ gs, g.root_entry = rootEntry ∧
        ∃ partIndex content, render [g] partIndex = Except.ok content ∧
          sizeBytes = getUtf8ByteLength content := by
  induction gs with
  | nil =>
    intro parts cur curContent curBytes rootEntry sizeBytes limitBytes hres _
    by_cases hc : cur.isEmpty
    · simp [splitLoop, hc] at hres
    · simp [splitLoop, hc] at hres
  | cons group restGroups ih =>
    intro parts cur curContent curBytes rootEntry sizeBytes limitBytes hres hcurparts
    simp only [splitLoop] at hres
    split at hres
    next e heq => simp at hres
    next nextContent heq =>
      split at hres
      case isTrue hfit =>
        have := ih parts (cur ++ [group]) nextContent (getUtf8ByteLength nextContent)
          rootEntry sizeBytes limitBytes hres (by simp)
        obtain ⟨h1, h2, g, hg, h3⟩ := this
        exact ⟨h1, h2, g, List.mem_cons_of_mem _ hg, h3⟩
      case isFalse hfit =>
        split at hres
        case isTrue hce =>
          rw [Except.error.injEq, SplitError.sizeExceeded.injEq] at hres
          obtain ⟨hre, hsz, hlim⟩ := hres
          have hcur0 : cur = [] := List.isEmpty_iff.mp hce
          subst hcur0
          refine ⟨hlim.symm, ?_, group, List.mem_cons_self _ _, hre, parts.length + 1,
            nextContent, ?_, hsz.symm⟩
          · rw [← hsz]
            exact lt_of_not_ge hfit
          · simpa using heq
        case isFalse hce =>
          split at hres
          next e heq2 => simp at hres
          next singleGroupContent heq2 =>
            split at hres
            case isTrue hbig =>
              rw [Except.error.injEq, SplitError.sizeExceeded.injEq] at hres
              obtain ⟨hre, hsz, hlim⟩ := hres
              refine ⟨hlim.symm, ?_, group, List.mem_cons_self _ _, hre, _, _, heq2,
                hsz.symm⟩
              rw [← hsz]
              exact hbig
            case isFalse hbig =>
              have := ih _ [group] singleGroupContent (getUtf8ByteLength singleGroupContent)
                rootEntry sizeBytes limitBytes hres (by simp)
              obtain ⟨h1, h2, g, hg, h3⟩ := this
              exact ⟨h1, h2, g, List.mem_cons_of_mem _ hg, h3⟩

theorem charListLe_total (xs : List Char) :
    ∀ ys, (strLe.charListLe xs ys || strLe.charListLe ys xs) = true := by
  induction xs with
  | nil => intro ys; simp [strLe.charListLe]
  | cons x xs ih =>
    intro ys
    cases ys with
    | nil => simp [strLe.charListLe]
    | cons y ys =>
      by_cases hxy : x = y
      · subst hxy
        simpa [strLe.charListLe] using ih ys
      · rcases lt_or_gt_of_ne hxy with h | h
        · simp [strLe.charListLe, hxy, (Ne.symm hxy), h]
        · simp [strLe.charListLe, hxy, (Ne.symm hxy), h]

theorem charListLe_trans (xs : List Char) :
    ∀ ys zs, strLe.charListLe xs ys = true → strLe.charListLe ys zs = true →
      strLe.charListLe xs zs = true := by
  induction xs with
  | nil => intro ys zs _ _; simp [strLe.charListLe]
  | cons x xs ih =>
    intro ys zs h1 h2
    cases ys with
    | nil => simp [strLe.charListLe] at h1
    | cons y ys =>
      cases zs with
      | nil => simp [strLe.charListLe] at h2
      | cons z zs =>
        by_cases hxy : x = y <;> by_cases hyz : y = z
        · subst hxy; subst hyz
          simp only [strLe.charListLe, if_pos rfl] at h1 h2 ⊢
          exact ih ys zs h1 h2
        · subst hxy
          simp only [strLe.charListLe, if_pos rfl, if_neg hyz] at h1 h2
          have hlt : x < z := by simpa using h2
          simp [strLe.charListLe, ne_of_lt hlt, hlt]
        · subst hyz
          simp only [strLe.charListLe, if_neg hxy, if_pos rfl] at h1 h2
          have hlt : x < y := by simpa using h1
          simp [strLe.charListLe, hxy, hlt]
        · simp only [strLe.charListLe, if_neg hxy, if_neg hyz] at h1 h2
          have hlt : x < z := lt_trans (by simpa using h1) (by simpa using h2)
          simp [strLe.charListLe, ne_of_lt hlt, hlt]

theorem strLe_total (a b : String) : (strLe a b || strLe b a) = true :=
  charListLe_total a.data b.data

theorem strLe_trans (a b c : String) : strLe a b = true → strLe b c = true →
    strLe a c = true :=
  charListLe_trans a.data b.data c.data

theorem addAllFilePath_roots (fp : String) : ∀ gs : List OutputSplitGroup,
    (addAllFilePath gs fp).map (fun g => g.root_entry) =
      if getRootEntry fp ∈ gs.map (fun g => g.root_entry) then gs.map (fun g => g.root_entry)
      else gs.map (fun g => g.root_entry) ++ [getRootEntry fp] := by
  intro gs
  induction gs with
  | nil => simp [addAllFilePath]
  | cons g gs ih =>
    by_cases h : g.root_entry = getRootEntry fp
    · simp [addAllFilePath, h]
    · simp only [addAllFilePath, if_neg h, List.map_cons, ih]
      by_cases hm : getRootEntry fp ∈ gs.map (fun g => g.root_entry)
      · simp [hm, Ne.symm h]
      · simp [hm, Ne.symm h]

theorem addProcessedFileToGroups_roots (pf : ProcessedFile) : ∀ gs : List OutputSplitGroup,
    (addProcessedFileToGroups gs pf).map (fun g => g.root_entry) =
      if getRootEntry pf.path ∈ gs.map (fun g => g.root_entry) then
        gs.map (fun g => g.root_entry)
      else gs.map (fun g => g.root_entry) ++ [getRootEntry pf.path] := by
  intro gs
  induction gs with
  | nil => simp [addProcessedFileToGroups]
  | cons g gs ih =>
    by_cases h : g.root_entry = getRootEntry pf.path
    · simp [addProcessedFileToGroups, h]
    · simp only [addProcessedFileToGroups, if_neg h, List.map_cons, ih]
      by_cases hm : getRootEntry pf.path ∈ gs.map (fun g => g.root_entry)
      · simp [hm, Ne.symm h]
      · simp [hm, Ne.symm h]

theorem addAllFilePath_roots_nodup (fp : String) (gs : List OutputSplitGroup)
    (h : (gs.map (fun g => g.root_entry)).Nodup) :
    ((addAllFilePath gs fp).map (fun g => g.root_entry)).Nodup := by
  rw [addAllFilePath_roots]
  by_cases hm : getRootEntry fp ∈ gs.map (fun g => g.root_entry)
  · simpa [hm] using h
  · simp only [if_neg hm]
    simpa [List.nodup_append, hm] using h

theorem addProcessedFileToGroups_roots_nodup (pf : ProcessedFile) (gs : List OutputSplitGroup)
    (h : (gs.map (fun g => g.root_entry)).Nodup) :
    ((addProcessedFileToGroups gs pf).map (fun g => g.root_entry)).Nodup := by
  rw [addProcessedFileToGroups_roots]
  by_cases hm : getRootEntry pf.path ∈ gs.map (fun g => g.root_entry)
  · simpa [hm] using h
  · simp only [if_neg hm]
    simpa [List.nodup_append, hm] using h

/-- Every group records the root entry of every path and file it holds. -/
def GroupsConsistent (gs : List OutputSplitGroup) : Prop :=
  ∀ g ∈ gs, (∀ p ∈ g.all_file_paths, getRootEntry p = g.root_entry) ∧
    (∀ f ∈ g.processed_files, getRootEntry f.path = g.root_entry)

theorem addAllFilePath_consistent (fp : String) : ∀ gs : List OutputSplitGroup,
    GroupsConsistent gs → GroupsConsistent (addAllFilePath gs fp) := by
  intro gs
  induction gs with
  | nil =>
    intro _ g hg
    rcases List.mem_singleton.mp hg with rfl
    constructor
    · intro p hp
      rcases List.mem_singleton.mp hp with rfl
      rfl
    · intro f hf
      simp at hf
  | cons g0 gs ih =>
    intro hc g hg
    by_cases h : g0.root_entry = getRootEntry fp
    · simp only [addAllFilePath, if_pos h] at hg
      rcases List.mem_cons.mp hg with rfl | hmem
      · constructor
        · intro p hp
          rcases List.mem_append.mp hp with hp | hp
          · exact (hc g0 (List.mem_cons_self _ _)).1 p hp
          · rcases List.mem_singleton.mp hp with rfl
            exact h.symm
        · intro f hf
          exact (hc g0 (List.mem_cons_self _ _)).2 f hf
      · exact hc g (List.mem_cons_of_mem _ hmem)
    · simp only [addAllFilePath, if_neg h] at hg
      rcases List.mem_cons.mp hg with rfl | hmem
      · exact hc g (List.mem_cons_self _ _)
      · exact ih (fun g' hg' => hc g' (List.mem_cons_of_mem _ hg')) g hmem

theorem addProcessedFileToGroups_consistent (pf : ProcessedFile) :
    ∀ gs : List OutputSplitGroup,
    GroupsConsistent gs → GroupsConsistent (addProcessedFileToGroups gs pf) := by
  intro gs
  induction gs with
  | nil =>
    intro _ g hg
    rcases List.mem_singleton.mp hg with rfl
    constructor
    · intro p hp
      rcases List.mem_singleton.mp hp with rfl
      rfl
    · intro f hf
      rcases List.mem_singleton.mp hf with rfl
      rfl
  | cons g0 gs ih =>
    intro hc g hg
    by_cases h : g0.root_entry = getRootEntry pf.path
    · simp only [addProcessedFileToGroups, if_pos h] at hg
      rcases List.mem_cons.mp hg with rfl | hmem
      · constructor
        · intro p hp
          exact (hc g0 (List.mem_cons_self _ _)).1 p hp
        · intro f hf
          rcases List.mem_append.mp hf with hf | hf
          · exact (hc g0 (List.mem_cons_self _ _)).2 f hf
          · rcases List.mem_singleton.mp hf with rfl
            exact h.symm
      · exact hc g (List.mem_cons_of_mem _ hmem)
    · simp only [addProcessedFileToGroups, if_neg h] at hg
      rcases List.mem_cons.mp hg with rfl | hmem
      · exact hc g (List.mem_cons_self _ _)
      · exact ih (fun g' hg' => hc g' (List.mem_cons_of_mem _ hg')) g hmem

theorem buildOutputSplitGroups_roots_nodup (processedFiles : List ProcessedFile)
    (allFilePaths : List String) :
    ((buildOutputSplitGroups processedFiles allFilePaths).map
      (fun g => g.root_entry)).Nodup := by
  unfold buildOutputSplitGroups
  have h1 : ∀ (paths : List String) (acc : List OutputSplitGroup),
      (acc.map (fun g => g.root_entry)).Nodup →
      ((paths.foldl addAllFilePath acc).map (fun g => g.root_entry)).Nodup := by
    intro paths
    induction paths with
    | nil => intro acc h; exact h
    | cons p ps ih => intro acc h; exact ih _ (addAllFilePath_roots_nodup p acc h)
  have h2 : ∀ (pfs : List ProcessedFile) (acc : List OutputSplitGroup),
      (acc.map (fun g => g.root_entry)).Nodup →
      ((pfs.foldl addProcessedFileToGroups acc).map (fun g => g.root_entry)).Nodup := by
    intro pfs
    induction pfs with
    | nil => intro acc h; exact h
    | cons p ps ih => intro acc h; exact ih _ (addProcessedFileToGroups_roots_nodup p acc h)
  have hbase := h2 processedFiles (allFilePaths.foldl addAllFilePath [])
    (h1 allFilePaths [] (by simp))
  have hperm := List.mergeSort_perm
    (processedFiles.foldl addProcessedFileToGroups (allFilePaths.foldl addAllFilePath []))
    (fun a b => strLe a.root_entry b.root_entry)
  exact ((hperm.map (fun g => g.root_entry)).nodup_iff).mpr hbase

theorem buildOutputSplitGroups_consistent (processedFiles : List ProcessedFile)
    (allFilePaths : List String) :
    GroupsConsistent (buildOutputSplitGroups processedFiles allFilePaths) := by
  unfold buildOutputSplitGroups
  have h1 : ∀ (paths : List String) (acc : List OutputSplitGroup),
      GroupsConsistent acc → GroupsConsistent (paths.foldl addAllFilePath acc) := by
    intro paths
    induction paths with
    | nil => intro acc h; exact h
    | cons p ps ih => intro acc h; exact ih _ (addAllFilePath_consistent p acc h)
  have h2 : ∀ (pfs : List ProcessedFile) (acc : List OutputSplitGroup),
      GroupsConsistent acc → GroupsConsistent (pfs.foldl addProcessedFileToGroups acc) := by
    intro pfs
    induction pfs with
    | nil => intro acc h; exact h
    | cons p ps ih => intro acc h; exact ih _ (addProcessedFileToGroups_consistent p acc h)
  have hbase := h2 processedFiles (allFilePaths.foldl addAllFilePath [])
    (h1 allFilePaths [] (by intro g hg; simp at hg))
  intro g hg
  exact hbase g (List.mem_mergeSort.mp hg)

theorem buildOutputSplitGroups_sorted (processedFiles : List ProcessedFile)
    (allFilePaths : List String) :
    (buildOutputSplitGroups processedFiles allFilePaths).Pairwise
      (fun a b => strLe a.root_entry b.root_entry = true) := by
  unfold buildOutputSplitGroups
  exact List.sorted_mergeSort
    (fun a b c hab hbc => strLe_trans a.root_entry b.root_entry c.root_entry hab hbc)
    (fun a b => strLe_total a.root_entry b.root_entry)
    _

/-- C1: Every part returned by generate_split_output_parts carries
byte_length equal to the UTF-8 byte count of its content and at most the
limit; and a size-exceeded error carries the offending group's root-entry
name, the measured byte size of that group rendered alone (a size strictly
above the limit), and the limit itself, so no oversized part is ever
returned. -/
theorem split_byte_bound_and_size_error
    (genOutputFn : List ProcessedFile → RepomixConfig → List (String × Nat) →
      List (String × Nat) → FileTreeDict → Option GitDiffResult → Option GitLogResult →
      Except RenderError String)
    (processedFiles : List ProcessedFile) (allFilePaths : List String)
    (maxBytesPerPart : Int) (baseConfig : RepomixConfig)
    (fileCharCounts fileTokenCounts : List (String × Nat))
    (gitDiffResult : Option GitDiffResult) (gitLogResult : Option GitLogResult) :
    (∀ parts, generateSplitOutputParts genOutputFn processedFiles allFilePaths
        maxBytesPerPart baseConfig fileCharCounts fileTokenCounts gitDiffResult gitLogResult =
        Except.ok parts →
      ∀ p ∈ parts, p.byte_length = getUtf8ByteLength p.content ∧
        (p.byte_length : Int) ≤ maxBytesPerPart) ∧
    (∀ rootEntry sizeBytes limitBytes,
      generateSplitOutputParts genOutputFn processedFiles allFilePaths
        maxBytesPerPart baseConfig fileCharCounts fileTokenCounts gitDiffResult gitLogResult =
        Except.error (SplitError.sizeExceeded rootEntry sizeBytes limitBytes) →
      limitBytes = maxBytesPerPart ∧ maxBytesPerPart < (sizeBytes : Int) ∧
      ∃ g ∈ buildOutputSplitGroups processedFiles allFilePaths,
        g.root_entry = rootEntry ∧
        ∃ partIndex content,
          renderSplitGroups genOutputFn baseConfig fileCharCounts fileTokenCounts
            gitDiffResult gitLogResult [g] partIndex = Except.ok content ∧
          sizeBytes = getUtf8ByteLength content) := by
  constructor
  · intro parts hok p hp
    simp only [generateSplitOutputParts] at hok
    split at hok
    · cases hok
    · split at hok
      · cases hok
        simp at hp
      · have := splitLoop_ok_spec _ maxBytesPerPart baseConfig.output.file_path
          (buildOutputSplitGroups processedFiles allFilePaths) [] [] "" 0
          (by intro p hp; simp at hp) (by simp) (fun h => absurd rfl h) parts hok
        obtain ⟨h1, h2, h3⟩ := this.1 p hp
        exact ⟨h1, h2⟩
  · intro rootEntry sizeBytes limitBytes herr
    simp only [generateSplitOutputParts] at herr
    split at herr
    · cases herr
    · split at herr
      · cases herr
      · exact splitLoop_sizeExceeded_spec _ maxBytesPerPart baseConfig.output.file_path
          (buildOutputSplitGroups processedFiles allFilePaths) [] [] "" 0
          rootEntry sizeBytes limitBytes herr (fun _ => rfl)

/-- C2: For every normally returning call, concatenating the parts' group
lists in part order yields exactly the full group list built by
build_output_split_groups; those groups are sorted by root entry under the
code-point order with pairwise-distinct root entries, every path and file
recorded in a group has that group's root entry as its first path segment,
and empty inputs yield an empty part list. -/
theorem split_groups_atomic_partition
    (genOutputFn : List ProcessedFile → RepomixConfig → List (String × Nat) →
      List (String × Nat) → FileTreeDict → Option GitDiffResult → Option GitLogResult →
      Except RenderError String)
    (processedFiles : List ProcessedFile) (allFilePaths : List String)
    (maxBytesPerPart : Int) (baseConfig : RepomixConfig)
    (fileCharCounts fileTokenCounts : List (String × Nat))
    (gitDiffResult : Option GitDiffResult) (gitLogResult : Option GitLogResult) :
    (∀ parts, generateSplitOutputParts genOutputFn processedFiles allFilePaths
        maxBytesPerPart baseConfig fileCharCounts fileTokenCounts gitDiffResult gitLogResult =
        Except.ok parts →
      parts.flatMap (fun p => p.groups) = buildOutputSplitGroups processedFiles allFilePaths) ∧
    (buildOutputSplitGroups processedFiles allFilePaths).Pairwise
      (fun a b => strLe a.root_entry b.root_entry = true) ∧
    ((buildOutputSplitGroups processedFiles allFilePaths).map
      (fun g => g.root_entry)).Nodup ∧
    GroupsConsistent (buildOutputSplitGroups processedFiles allFilePaths) ∧
    (0 < maxBytesPerPart →
      generateSplitOutputParts genOutputFn [] [] maxBytesPerPart baseConfig
        fileCharCounts fileTokenCounts gitDiffResult gitLogResult = Except.ok []) := by
  refine ⟨?_, buildOutputSplitGroups_sorted _ _, buildOutputSplitGroups_roots_nodup _ _,
    buildOutputSplitGroups_consistent _ _, ?_⟩
  · intro parts hok
    simp only [generateSplitOutputParts] at hok
    split at hok
    · cases hok
    · split at hok
      next hempty =>
        cases hok
        simp [List.isEmpty_iff.mp hempty]
      next hempty =>
        have := splitLoop_ok_spec _ maxBytesPerPart baseConfig.output.file_path
          (buildOutputSplitGroups processedFiles allFilePaths) [] [] "" 0
          (by intro p hp; simp at hp) (by simp) (fun h => absurd rfl h) parts hok
        simpa using this.2.2
  · intro hpos
    simp only [generateSplitOutputParts]
    rw [if_neg (by omega)]
    have : buildOutputSplitGroups [] [] = [] := by
      simp [buildOutputSplitGroups, List.mergeSort]
    rw [this]
    simp

/-- C3: Every returned part was rendered at its own 1-based index: part 1
is rendered with the base configuration and the git diff/log data, while
every part with index at least 2 is rendered with a configuration equal to
the base one except that git.include_diffs and git.include_logs are false
(the record update leaves every other field unchanged) and with absent
diff/log data. -/
theorem split_git_sections_only_first_part
    (genOutputFn : List ProcessedFile → RepomixConfig → List (String × Nat) →
      List (String × Nat) → FileTreeDict → Option GitDiffResult → Option GitLogResult →
      Except RenderError String)
    (processedFiles : List ProcessedFile) (allFilePaths : List String)
    (maxBytesPerPart : Int) (baseConfig : RepomixConfig)
    (fileCharCounts fileTokenCounts : List (String × Nat))
    (gitDiffResult : Option GitDiffResult) (gitLogResult : Option GitLogResult)
    (parts : List OutputSplitPart)
    (hok : generateSplitOutputParts genOutputFn processedFiles allFilePaths
      maxBytesPerPart baseConfig fileCharCounts fileTokenCounts gitDiffResult gitLogResult =
      Except.ok parts) :
    ∀ p ∈ parts, 1 ≤ p.index ∧
      (p.index = 1 →
        ∃ fileTree,
          buildFilteredFileTree (p.groups.flatMap (fun g => g.processed_files)) =
            some fileTree ∧
          genOutputFn (p.groups.flatMap (fun g => g.processed_files)) baseConfig
            fileCharCounts fileTokenCounts fileTree gitDiffResult gitLogResult =
            Except.ok p.content) ∧
      (2 ≤ p.index →
        makeChunkConfig baseConfig p.index =
          { baseConfig with
            output := { baseConfig.output with
              git := { baseConfig.output.git with
                include_diffs := false, include_logs := false } } } ∧
        ∃ fileTree,
          buildFilteredFileTree (p.groups.flatMap (fun g => g.processed_files)) =
            some fileTree ∧
          genOutputFn (p.groups.flatMap (fun g => g.processed_files))
            { baseConfig with
              output := { baseConfig.output with
                git := { baseConfig.output.git with
                  include_diffs := false, include_logs := false } } }
            fileCharCounts fileTokenCounts fileTree none none = Except.ok p.content) := by
  intro p hp
  have hloop : SplitPartOk
      (renderSplitGroups genOutputFn baseConfig fileCharCounts fileTokenCounts
        gitDiffResult gitLogResult) maxBytesPerPart baseConfig.output.file_path p ∧
      1 ≤ p.index := by
    simp only [generateSplitOutputParts] at hok
    split at hok
    · cases hok
    · split at hok
      · cases hok
        simp at hp
      · have := splitLoop_ok_spec _ maxBytesPerPart baseConfig.output.file_path
          (buildOutputSplitGroups processedFiles allFilePaths) [] [] "" 0
          (by intro q hq; simp at hq) (by simp) (fun h => absurd rfl h) parts hok
        refine ⟨this.1 p hp, ?_⟩
        have hmem : p.index ∈ parts.map (fun q => q.index) := List.mem_map_of_mem _ hp
        rw [this.2.1] at hmem
        exact (List.mem_range'_1.mp hmem).1
  obtain ⟨⟨_, _, hrender, _⟩, hge1⟩ := hloop
  unfold renderSplitGroups at hrender
  refine ⟨hge1, ?_, ?_⟩
  · intro h1
    rw [h1] at hrender
    simp only [makeChunkConfig, if_pos rfl, if_pos rfl] at hrender
    split at hrender
    · cases hrender
    next fileTree heq =>
      exact ⟨fileTree, heq, hrender⟩
  · intro h2
    have hne : p.index ≠ 1 := by omega
    have hcfg : makeChunkConfig baseConfig p.index =
        { baseConfig with
          output := { baseConfig.output with
            git := { baseConfig.output.git with
              include_diffs := false, include_logs := false } } } := by
      simp [makeChunkConfig, hne]
    refine ⟨hcfg, ?_⟩
    rw [hcfg, if_neg hne, if_neg hne] at hrender
    simp only [] at hrender
    split at hrender
    · cases hrender
    next fileTree heq =>
      exact ⟨fileTree, heq, hrender⟩

theorem makeChunkConfig_output_fields (baseConfig : RepomixConfig) (partIndex : Nat) :
    (makeChunkConfig baseConfig partIndex).output.style = baseConfig.output.style ∧
    (makeChunkConfig baseConfig partIndex).output.calculate_tokens =
      baseConfig.output.calculate_tokens ∧
    (makeChunkConfig baseConfig partIndex).output.style_enum =
      baseConfig.output.style_enum := by
  by_cases h : partIndex = 1
  · simp [makeChunkConfig, h]
  · simp [makeChunkConfig, h, RepomixConfigOutput.style_enum]

/-- C10: With generate_output as the injected renderer, every returned
part's content ends with a statistics section computed from the sums of
the entire per-file character and token count maps that were passed to
generate_split_output_parts (not the per-part restrictions), so all parts
of one run report the same repository-wide totals. -/
theorem split_statistics_totals_from_whole_maps
    (styles : RepomixOutputStyle → OutputStyleFns)
    (processedFiles : List ProcessedFile) (allFilePaths : List String)
    (maxBytesPerPart : Int) (baseConfig : RepomixConfig)
    (fileCharCounts fileTokenCounts : List (String × Nat))
    (gitDiffResult : Option GitDiffResult) (gitLogResult : Option GitLogResult)
    (parts : List OutputSplitPart)
    (hok : generateSplitOutputParts (generateOutput styles) processedFiles allFilePaths
      maxBytesPerPart baseConfig fileCharCounts fileTokenCounts gitDiffResult gitLogResult =
      Except.ok parts) :
    ∀ p ∈ parts, ∃ body : String,
      p.content = body ++
        (styles baseConfig.output.style_enum).generate_statistics
          (p.groups.flatMap (fun g => g.processed_files)).length
          (sumValues fileCharCounts)
          (if baseConfig.output.calculate_tokens then sumValues fileTokenCounts else 0) ++
        (styles baseConfig.output.style_enum).generate_footer := by
  intro p hp
  have hloop : SplitPartOk
      (renderSplitGroups (generateOutput styles) baseConfig fileCharCounts fileTokenCounts
        gitDiffResult gitLogResult) maxBytesPerPart baseConfig.output.file_path p := by
    simp only [generateSplitOutputParts] at hok
    split at hok
    · cases hok
    · split at hok
      · cases hok
        simp at hp
      · exact (splitLoop_ok_spec _ maxBytesPerPart baseConfig.output.file_path
          (buildOutputSplitGroups processedFiles allFilePaths) [] [] "" 0
          (by intro q hq; simp at hq) (by simp) (fun h => absurd rfl h) parts hok).1 p hp
  obtain ⟨_, _, hrender, _⟩ := hloop
  unfold renderSplitGroups at hrender
  simp only [] at hrender
  split at hrender
  · cases hrender
  next fileTree heq =>
    obtain ⟨hstyle, hcalc, henum⟩ := makeChunkConfig_output_fields baseConfig p.index
    simp only [generateOutput] at hrender
    split at hrender
    · cases hrender
    next displayTree heq2 =>
      split at hrender
      · cases hrender
      next hnotjson =>
        rw [Except.ok.injEq] at hrender
        rw [henum, hcalc] at hrender
        exact ⟨_, hrender.symm⟩

/-- A style object whose sections are all empty, used as a concrete
instantiation of the abstract renderer family in closed evaluations. -/
def trivialStyleFns : OutputStyleFns :=
  { generate_header := ""
    generate_file_tree_section := fun _ => ""
    generate_files_section := fun _ _ _ => ""
    generate_git_diff_section := fun _ _ => ""
    generate_git_log_section := fun _ => ""
    generate_statistics := fun _ _ _ => ""
    generate_footer := "" }

/-- A configuration whose output style string is "json". -/
def jsonStyleConfig : RepomixConfig := { output := { style := "json" } }

/-- C5: generate_output with the JSON style raises TypeError instead of
returning the serialized document: the call into
JsonStyle.generate_json_output passes git_diff_result / git_log_result
keyword arguments (output_generate.py lines 90-91) that the method's
signature does not accept (json_style.py lines 49-58).  Evaluated here at
the concrete failing input of an empty file list under the JSON-style
configuration. -/
theorem generate_output_json_style_type_error :
    jsonStyleConfig.output.style_enum = RepomixOutputStyle.json ∧
    generateOutput (fun _ => trivialStyleFns) [] jsonStyleConfig [] [] [] none none =
      Except.error RenderError.jsonKwargsTypeError := by
  constructor
  · rfl
  · rfl

/-- C7 (amended): generate_split_output_parts fails on a non-positive byte
limit before any grouping (the error is produced for every input file
set); but constructing a configuration with an unrecognized style value
does not fail - __post_init__ falls back to the markdown style - while
assigning an unrecognized style to an existing configuration raises
ValueError. -/
theorem config_error_handling_amended :
    (∀ (genOutputFn : List ProcessedFile → RepomixConfig → List (String × Nat) →
        List (String × Nat) → FileTreeDict → Option GitDiffResult → Option GitLogResult →
        Except RenderError String)
      (processedFiles : List ProcessedFile) (allFilePaths : List String)
      (maxBytesPerPart : Int) (baseConfig : RepomixConfig)
      (fileCharCounts fileTokenCounts : List (String × Nat))
      (gitDiffResult : Option GitDiffResult) (gitLogResult : Option GitLogResult),
      maxBytesPerPart ≤ 0 →
      generateSplitOutputParts genOutputFn processedFiles allFilePaths maxBytesPerPart
        baseConfig fileCharCounts fileTokenCounts gitDiffResult gitLogResult =
        Except.error (SplitError.invalidMaxBytes maxBytesPerPart)) ∧
    (∀ s, parseRepomixOutputStyle (strToLower s) = none →
      postInitStyleEnum s = RepomixOutputStyle.markdown ∧
      processStyleValue s = Except.error s) := by
  constructor
  · intro genOutputFn processedFiles allFilePaths maxBytesPerPart baseConfig
      fileCharCounts fileTokenCounts gitDiffResult gitLogResult h
    simp [generateSplitOutputParts, h]
  · intro s h
    constructor
    · simp [postInitStyleEnum, h]
    · simp [processStyleValue, h]

theorem config_error_handling_witness :
    generateSplitOutputParts (fun _ _ _ _ _ _ _ => Except.ok "") [] [] 0 {} [] [] none none =
      Except.error (SplitError.invalidMaxBytes 0) ∧
    postInitStyleEnum "bogus" = RepomixOutputStyle.markdown ∧
    processStyleValue "bogus" = Except.error "bogus" := by
  have h := config_error_handling_amended
  exact ⟨h.1 _ [] [] 0 {} [] [] none none (by decide),
    (h.2 "bogus" (by decide)).1, (h.2 "bogus" (by decide)).2⟩

/-- C7 counterexample: the style value "bogus" is rejected by the enum
constructor, yet constructing an output configuration with it succeeds and
silently yields the markdown style enum, so construction does not fail
fast on an invalid style. -/
theorem config_invalid_style_constructs_markdown :
    parseRepomixOutputStyle (strToLower "bogus") = none ∧
    ({ output := { style := "bogus" } } : RepomixConfig).output.style_enum =
      RepomixOutputStyle.markdown := by
  constructor
  · decide
  · decide

def witFileA : ProcessedFile := { path := "src/a.py", content := "aaa" }

def witFileB : ProcessedFile := { path := "docs/b.md", content := "bb" }

def witGenFn : List ProcessedFile → RepomixConfig → List (String × Nat) →
    List (String × Nat) → FileTreeDict → Option GitDiffResult → Option GitLogResult →
    Except RenderError String :=
  fun fs _ _ _ _ _ _ => Except.ok (String.join (fs.map (fun f => f.content)))

example : buildOutputSplitGroups [witFileA, witFileB] ["src/a.py", "docs/b.md"] =
    [{ root_entry := "docs", processed_files := [witFileB], all_file_paths := ["docs/b.md"] },
     { root_entry := "src", processed_files := [witFileA], all_file_paths := ["src/a.py"] }] := by
  simp [buildOutputSplitGroups, addAllFilePath, addProcessedFileToGroups, getRootEntry,
    replaceChar, splitOnChar, splitCharList, List.mergeSort, List.merge, strLe,
    strLe.charListLe, witFileA, witFileB]

def witGroupDocs : OutputSplitGroup :=
  { root_entry := "docs", processed_files := [witFileB], all_file_paths := ["docs/b.md"] }

def witGroupSrc : OutputSplitGroup :=
  { root_entry := "src", processed_files := [witFileA], all_file_paths := ["src/a.py"] }

def witPart1 : OutputSplitPart :=
  { index := 1, file_path := "repomix-output.1.md", content := "bb", byte_length := 2,
    groups := [witGroupDocs] }

def witPart2 : OutputSplitPart :=
  { index := 2, file_path := "repomix-output.2.md", content := "aaa", byte_length := 3,
    groups := [witGroupSrc] }

theorem wit_split_eval : generateSplitOutputParts witGenFn [witFileA, witFileB]
    ["src/a.py", "docs/b.md"] 4 {} [] [] none none = Except.ok [witPart1, witPart2] := by
  simp [generateSplitOutputParts, buildOutputSplitGroups, addAllFilePath,
    addProcessedFileToGroups, getRootEntry, replaceChar, splitOnChar, splitCharList,
    List.mergeSort, List.merge, strLe, strLe.charListLe, witFileA, witFileB, witGenFn,
    splitLoop, renderSplitGroups, makeChunkConfig, buildFilteredFileTree, insertTreePath,
    pathParts, getUtf8ByteLength, buildSplitOutputFilePath, splitExt, setFEntry,
    lookupFEntry, String.join, witPart1, witPart2, witGroupDocs, witGroupSrc]
  rfl

def witDiff : GitDiffResult := {}

def witLog : GitLogResult := {}

theorem wit_split_eval2 : generateSplitOutputParts witGenFn [witFileA, witFileB]
    ["src/a.py", "docs/b.md"] 4 {} [] [] (some witDiff) (some witLog) =
    Except.ok [witPart1, witPart2] := by
  simp [generateSplitOutputParts, buildOutputSplitGroups, addAllFilePath,
    addProcessedFileToGroups, getRootEntry, replaceChar, splitOnChar, splitCharList,
    List.mergeSort, List.merge, strLe, strLe.charListLe, witFileA, witFileB, witGenFn,
    splitLoop, renderSplitGroups, makeChunkConfig, buildFilteredFileTree, insertTreePath,
    pathParts, getUtf8ByteLength, buildSplitOutputFilePath, splitExt, setFEntry,
    lookupFEntry, String.join, witPart1, witPart2, witGroupDocs, witGroupSrc]
  rfl

theorem split_byte_bound_witness :
    witPart1.byte_length = getUtf8ByteLength witPart1.content ∧
    (witPart1.byte_length : Int) ≤ 4 ∧
    witPart2.byte_length = getUtf8ByteLength witPart2.content ∧
    (witPart2.byte_length : Int) ≤ 4 := by
  have h := (split_byte_bound_and_size_error witGenFn [witFileA, witFileB]
    ["src/a.py", "docs/b.md"] 4 {} [] [] none none).1 [witPart1, witPart2] wit_split_eval
  have h1 := h witPart1 (by simp)
  have h2 := h witPart2 (by simp)
  exact ⟨h1.1, h1.2, h2.1, h2.2⟩

theorem split_groups_partition_witness :
    [witPart1, witPart2].flatMap (fun p => p.groups) =
      buildOutputSplitGroups [witFileA, witFileB] ["src/a.py", "docs/b.md"] ∧
    generateSplitOutputParts witGenFn [] [] 4 {} [] [] none none = Except.ok [] := by
  have h := split_groups_atomic_partition witGenFn [witFileA, witFileB]
    ["src/a.py", "docs/b.md"] 4 {} [] [] none none
  exact ⟨h.1 [witPart1, witPart2] wit_split_eval, h.2.2.2.2 (by decide)⟩

theorem split_git_sections_witness :
    1 ≤ witPart2.index ∧
    (witPart2.index = 1 →
      ∃ fileTree,
        buildFilteredFileTree (witPart2.groups.flatMap (fun g => g.processed_files)) =
          some fileTree ∧
        witGenFn (witPart2.groups.flatMap (fun g => g.processed_files)) {} [] [] fileTree
          (some witDiff) (some witLog) = Except.ok witPart2.content) ∧
    (2 ≤ witPart2.index →
      makeChunkConfig {} witPart2.index =
        { ({} : RepomixConfig) with
          output := { ({} : RepomixConfig).output with
            git := { ({} : RepomixConfig).output.git with
              include_diffs := false, include_logs := false } } } ∧
      ∃ fileTree,
        buildFilteredFileTree (witPart2.groups.flatMap (fun g => g.processed_files)) =
          some fileTree ∧
        witGenFn (witPart2.groups.flatMap (fun g => g.processed_files))
          { ({} : RepomixConfig) with
            output := { ({} : RepomixConfig).output with
              git := { ({} : RepomixConfig).output.git with
                include_diffs := false, include_logs := false } } } [] [] fileTree
          none none = Except.ok witPart2.content) :=
  split_git_sections_only_first_part witGenFn [witFileA, witFileB]
    ["src/a.py", "docs/b.md"] 4 {} [] [] (some witDiff) (some witLog)
    [witPart1, witPart2] wit_split_eval2 witPart2 (by simp)

def witStyleFns : OutputStyleFns :=
  { generate_header := "H"
    generate_file_tree_section := fun _ => "T"
    generate_files_section := fun _ _ _ => "F"
    generate_git_diff_section := fun _ _ => "D"
    generate_git_log_section := fun _ => "L"
    generate_statistics := fun _ _ _ => "S"
    generate_footer := "E" }

def witPart3 : OutputSplitPart :=
  { index := 1, file_path := "repomix-output.1.md", content := "HTFSE", byte_length := 5,
    groups := [witGroupDocs, witGroupSrc] }

theorem wit_split_eval3 :
    generateSplitOutputParts (generateOutput (fun _ => witStyleFns)) [witFileA, witFileB]
      ["src/a.py", "docs/b.md"] 100 {}
      [("src/a.py", 3), ("docs/b.md", 2)] [("src/a.py", 1), ("docs/b.md", 1)]
      none none = Except.ok [witPart3] := by
  simp [generateSplitOutputParts, buildOutputSplitGroups, addAllFilePath,
    addProcessedFileToGroups, getRootEntry, replaceChar, splitOnChar, splitCharList,
    List.mergeSort, List.merge, strLe, strLe.charListLe, witFileA, witFileB,
    splitLoop, renderSplitGroups, makeChunkConfig, buildFilteredFileTree, insertTreePath,
    pathParts, getUtf8ByteLength, buildSplitOutputFilePath, splitExt, setFEntry,
    lookupFEntry, witPart3, witGroupDocs, witGroupSrc, generateOutput, sumValues,
    RepomixConfigOutput.style_enum, postInitStyleEnum, parseRepomixOutputStyle, strToLower,
    witStyleFns]
  rfl

theorem split_statistics_witness :
    ∃ body : String,
      witPart3.content = body ++
        witStyleFns.generate_statistics
          (witPart3.groups.flatMap (fun g => g.processed_files)).length
          (sumValues [("src/a.py", 3), ("docs/b.md", 2)])
          (if ({} : RepomixConfig).output.calculate_tokens then
            sumValues [("src/a.py", 1), ("docs/b.md", 1)] else 0) ++
        witStyleFns.generate_footer := by
  have h := split_statistics_totals_from_whole_maps (fun _ => witStyleFns)
    [witFileA, witFileB] ["src/a.py", "docs/b.md"] 100 {}
    [("src/a.py", 3), ("docs/b.md", 2)] [("src/a.py", 1), ("docs/b.md", 1)]
    none none [witPart3] wit_split_eval3 witPart3 (by simp)
  exact h

mutual

theorem calcTokenSums_invariant (t : TreeNode) : sumInvariant (calcTokenSums t) := by
  cases t with
  | mk fs s ch =>
    rw [calcTokenSums]
    simp only [sumInvariant]
    exact ⟨trivial, calcChildren_invariant ch⟩

theorem calcChildren_invariant (ch : List (String × TreeNode)) :
    sumInvariant.sumInvariantChildren (calcTokenSums.calcChildren ch) := by
  match ch with
  | [] =>
    rw [calcTokenSums.calcChildren]
    simp [sumInvariant.sumInvariantChildren]
  | (k, c) :: rest =>
    rw [calcTokenSums.calcChildren]
    simp only [sumInvariant.sumInvariantChildren]
    exact ⟨calcTokenSums_invariant c, calcChildren_invariant rest⟩

end

/-- C6: After build_token_count_tree, every node of the resulting tree
satisfies token_sum = sum of its own files' tokens + sum of its children's
token sums (the invariant predicate is recursive, so it covers the root
and every descendant node). -/
theorem token_tree_sum_invariant (filesWithTokens : List FileWithTokens) :
    sumInvariant (buildTokenCountTree filesWithTokens) :=
  calcTokenSums_invariant (filesWithTokens.foldl addFileWithTokens emptyTreeNode)

theorem buildSO_no_empty_dir (fnmatchFn : String → String → Bool)
    (dirExactMatches dirPatterns filePatterns : List String) :
    (relPref : String) → (entries : List FSNode) →
    hasNoEmptyDir (buildFileTreeSuperOptimized fnmatchFn dirExactMatches dirPatterns
      filePatterns relPref entries) = true
  | relPref, [] => by
    rw [buildFileTreeSuperOptimized]
    rw [hasNoEmptyDir]
  | relPref, FSNode.dir name sub :: rest => by
    rw [buildFileTreeSuperOptimized]
    simp only []
    split
    · exact buildSO_no_empty_dir fnmatchFn dirExactMatches dirPatterns filePatterns
        relPref rest
    · split
      · exact buildSO_no_empty_dir fnmatchFn dirExactMatches dirPatterns filePatterns
          relPref rest
      · split
        · exact buildSO_no_empty_dir fnmatchFn dirExactMatches dirPatterns filePatterns
            relPref rest
        · split
          · exact buildSO_no_empty_dir fnmatchFn dirExactMatches dirPatterns filePatterns
              relPref rest
          next hne =>
            simp only [hasNoEmptyDir]
            rw [buildSO_no_empty_dir fnmatchFn dirExactMatches dirPatterns filePatterns
              (childRelPath relPref name) sub]
            rw [buildSO_no_empty_dir fnmatchFn dirExactMatches dirPatterns filePatterns
              relPref rest]
            simp only [Bool.and_true]
            simpa using hne
  | relPref, FSNode.file name :: rest => by
    rw [buildFileTreeSuperOptimized]
    simp only []
    split
    · exact buildSO_no_empty_dir fnmatchFn dirExactMatches dirPatterns filePatterns
        relPref rest
    · split
      · simp only [hasNoEmptyDir]
        exact buildSO_no_empty_dir fnmatchFn dirExactMatches dirPatterns filePatterns
          relPref rest
      · split
        · exact buildSO_no_empty_dir fnmatchFn dirExactMatches dirPatterns filePatterns
            relPref rest
        · simp only [hasNoEmptyDir]
          exact buildSO_no_empty_dir fnmatchFn dirExactMatches dirPatterns filePatterns
            relPref rest

/-- C8 (amended): the filtered tree built by the ignore-aware walker never
contains an empty directory node, for every filesystem, every fnmatch
behaviour and every pattern set - independently of the
include_empty_directories option, which the walker never consults. -/
theorem filtered_tree_never_keeps_empty_dirs (fnmatchFn : String → String → Bool)
    (ignorePatterns : List String) (rootEntries : List FSNode) :
    hasNoEmptyDir (buildFileTreeWithIgnore fnmatchFn ignorePatterns rootEntries) = true := by
  unfold buildFileTreeWithIgnore
  exact buildSO_no_empty_dir fnmatchFn _ _ _ "" rootEntries

/-- C8 counterexample: with the empty-directories option enabled, a
directory that survives filtering (no pattern matches it) but has no
surviving children is still omitted from the filtered tree - the walker
takes no configuration at all, so the option cannot influence it. -/
theorem filtered_tree_empty_dir_omitted_counterexample :
    ({ output := { include_empty_directories := true } } :
      RepomixConfig).output.include_empty_directories = true ∧
    buildFileTreeWithIgnore (fun _ _ => false) [] [FSNode.dir "sub" []] = [] := by
  constructor
  · rfl
  · simp [buildFileTreeWithIgnore, buildFileTreeSuperOptimized, commonIgnores,
      strStartsWith, classifyIgnorePattern, childRelPath]

/-- Leaf paths contributed by a single tree entry. -/
def nodeLeafPaths (k : String) : FNode → List (List String)
  | FNode.file => [[k]]
  | FNode.dir sub => (leafPathsList sub).map (fun q => k :: q)

theorem leafPathsList_cons (k : String) (n : FNode) (rest : FileTreeDict) :
    leafPathsList ((k, n) :: rest) = nodeLeafPaths k n ++ leafPathsList rest := by
  cases n <;> simp [leafPathsList, nodeLeafPaths]

theorem leafPathsList_append (m1 : FileTreeDict) : ∀ m2 : FileTreeDict,
    leafPathsList (m1 ++ m2) = leafPathsList m1 ++ leafPathsList m2 := by
  induction m1 with
  | nil => intro m2; simp [leafPathsList]
  | cons e rest ih =>
    intro m2
    obtain ⟨k, n⟩ := e
    rw [List.cons_append, leafPathsList_cons, leafPathsList_cons, ih, List.append_assoc]

theorem setFEntry_of_lookup_none (k : String) (v : FNode) : ∀ m : FileTreeDict,
    lookupFEntry m k = none → setFEntry m k v = m ++ [(k, v)] := by
  intro m
  induction m with
  | nil => intro _; rfl
  | cons e rest ih =>
    obtain ⟨k0, n0⟩ := e
    intro h
    simp only [lookupFEntry] at h
    by_cases hk : k0 = k
    · simp [hk] at h
    · simp only [setFEntry, if_neg hk, List.cons_append, List.cons.injEq, true_and]
      exact ih (by simpa [hk] using h)

theorem lookupFEntry_some_decomp (k : String) (n0 : FNode) : ∀ m : FileTreeDict,
    lookupFEntry m k = some n0 →
    ∃ m1 m2, m = m1 ++ (k, n0) :: m2 ∧
      (∀ v, setFEntry m k v = m1 ++ (k, v) :: m2) := by
  intro m
  induction m with
  | nil => intro h; simp [lookupFEntry] at h
  | cons e rest ih =>
    obtain ⟨k0, w⟩ := e
    intro h
    simp only [lookupFEntry] at h
    by_cases hk : k0 = k
    · subst hk
      rw [if_pos rfl] at h
      injection h with h
      subst h
      exact ⟨[], rest, by simp, fun v => by simp [setFEntry]⟩
    · rw [if_neg hk] at h
      obtain ⟨m1, m2, hm, hset⟩ := ih h
      refine ⟨(k0, w) :: m1, m2, by simp [hm], fun v => ?_⟩
      simp only [setFEntry, if_neg hk, List.cons_append, List.cons.injEq, true_and]
      exact hset v

theorem insertTreePath_ok : ∀ (q : List String) (m : FileTreeDict), q ≠ [] →
    (∀ r ∈ leafPathsList m, r.isPrefixOf q = false ∧ q.isPrefixOf r = false) →
    ∃ m2, insertTreePath m q = some m2 ∧
      (leafPathsList m2).Perm (q :: leafPathsList m) := by
  intro q
  induction q with
  | nil => intro m h; exact absurd rfl h
  | cons k q' ih =>
    intro m _ hpre
    cases q' with
    | nil =>
      refine ⟨setFEntry m k FNode.file, rfl, ?_⟩
      cases hl : lookupFEntry m k with
      | none =>
        rw [setFEntry_of_lookup_none k FNode.file m hl, leafPathsList_append]
        simp [leafPathsList]
      | some n0 =>
        obtain ⟨m1, m2, hm, hset⟩ := lookupFEntry_some_decomp k n0 m hl
        rw [hset FNode.file, hm]
        rw [leafPathsList_append, leafPathsList_cons, leafPathsList_append, leafPathsList_cons]
        have hsub : nodeLeafPaths k n0 = [] := by
          cases n0 with
          | file =>
            exfalso
            have hmem : [k] ∈ leafPathsList m := by
              rw [hm, leafPathsList_append, leafPathsList_cons]
              simp [nodeLeafPaths]
            have := (hpre [k] hmem).2
            simp [List.isPrefixOf] at this
          | dir sub =>
            cases hls : leafPathsList sub with
            | nil => simp [nodeLeafPaths, hls]
            | cons r' rs =>
              exfalso
              have hmem : k :: r' ∈ leafPathsList m := by
                rw [hm, leafPathsList_append, leafPathsList_cons]
                simp only [List.mem_append, nodeLeafPaths]
                exact Or.inr (Or.inl (by
                  rw [hls]
                  exact List.mem_map_of_mem _ (List.mem_cons_self _ _)))
              have := (hpre (k :: r') hmem).2
              simp [List.isPrefixOf] at this
        rw [hsub]
        simp only [nodeLeafPaths, List.nil_append]
        exact List.perm_middle
    | cons q1 q2 =>
      rw [show insertTreePath m (k :: q1 :: q2) = (match lookupFEntry m k with
        | none => (insertTreePath [] (q1 :: q2)).map (fun sub => m ++ [(k, FNode.dir sub)])
        | some (FNode.dir sub) =>
          (insertTreePath sub (q1 :: q2)).map (fun sub2 => setFEntry m k (FNode.dir sub2))
        | some FNode.file => none) from rfl]
      cases hl : lookupFEntry m k with
      | none =>
        have hvac : ∀ r ∈ leafPathsList ([] : FileTreeDict),
            r.isPrefixOf (q1 :: q2) = false ∧ (q1 :: q2).isPrefixOf r = false := by
          intro r hr
          simp [leafPathsList] at hr
        obtain ⟨sub, hsub, hperm⟩ := ih [] (List.cons_ne_nil q1 q2) hvac
        refine ⟨m ++ [(k, FNode.dir sub)], by rw [hsub]; rfl, ?_⟩
        rw [leafPathsList_append, leafPathsList_cons]
        have hone : leafPathsList sub = [q1 :: q2] := by
          simpa [leafPathsList, List.perm_singleton] using hperm
        simp only [nodeLeafPaths, hone, leafPathsList]
        simp
      | some n0 =>
        cases n0 with
        | file =>
          exfalso
          obtain ⟨m1, m2, hm, _⟩ := lookupFEntry_some_decomp k FNode.file m hl
          have hmem : [k] ∈ leafPathsList m := by
            rw [hm, leafPathsList_append, leafPathsList_cons]
            simp [nodeLeafPaths]
          have := (hpre [k] hmem).1
          simp [List.isPrefixOf] at this
        | dir sub =>
          obtain ⟨m1, m2, hm, hset⟩ := lookupFEntry_some_decomp k (FNode.dir sub) m hl
          have hsubpre : ∀ r ∈ leafPathsList sub,
              r.isPrefixOf (q1 :: q2) = false ∧ (q1 :: q2).isPrefixOf r = false := by
            intro r hr
            have hmem : k :: r ∈ leafPathsList m := by
              rw [hm, leafPathsList_append, leafPathsList_cons]
              simp only [List.mem_append, nodeLeafPaths]
              exact Or.inr (Or.inl (List.mem_map_of_mem _ hr))
            have h2 := hpre (k :: r) hmem
            constructor
            · simpa [List.isPrefixOf] using h2.1
            · simpa [List.isPrefixOf] using h2.2
          obtain ⟨sub2, hsub2, hperm2⟩ := ih sub (List.cons_ne_nil q1 q2) hsubpre
          refine ⟨m1 ++ (k, FNode.dir sub2) :: m2, by simp [hsub2, hset], ?_⟩
          rw [hm]
          rw [leafPathsList_append, leafPathsList_cons, leafPathsList_append, leafPathsList_cons]
          simp only [nodeLeafPaths]
          have hmap : ((leafPathsList sub2).map (fun q => k :: q)).Perm
              ((k :: q1 :: q2) :: (leafPathsList sub).map (fun q => k :: q)) := by
            simpa using hperm2.map (fun q => k :: q)
          refine ((hmap.append_right (leafPathsList m2)).append_left (leafPathsList m1)).trans ?_
          simp [List.append_assoc]

theorem buildFilteredFileTree_fold_perm :
    ∀ (files : List ProcessedFile) (m : FileTreeDict) (done : List (List String)),
    (leafPathsList m).Perm done →
    (∀ f ∈ files, pathParts f.path ≠ []) →
    (∀ f ∈ files, ∀ r ∈ done,
      r.isPrefixOf (pathParts f.path) = false ∧ (pathParts f.path).isPrefixOf r = false) →
    (files.map (fun f => pathParts f.path)).Pairwise
      (fun a b => a.isPrefixOf b = false ∧ b.isPrefixOf a = false) →
    ∃ tree, files.foldlM (fun t pf => insertTreePath t (pathParts pf.path)) m = some tree ∧
      (leafPathsList tree).Perm (done ++ files.map (fun f => pathParts f.path)) := by
  intro files
  induction files with
  | nil =>
    intro m done hdone _ _ _
    exact ⟨m, rfl, by simpa using hdone⟩
  | cons f fs ih =>
    intro m done hdone hne hsep hpw
    have hpre : ∀ r ∈ leafPathsList m,
        r.isPrefixOf (pathParts f.path) = false ∧ (pathParts f.path).isPrefixOf r = false := by
      intro r hr
      exact hsep f (List.mem_cons_self _ _) r (hdone.mem_iff.mp hr)
    obtain ⟨m2, hins, hperm⟩ := insertTreePath_ok (pathParts f.path) m
      (hne f (List.mem_cons_self _ _)) hpre
    have hdone2 : (leafPathsList m2).Perm (done ++ [pathParts f.path]) := by
      refine hperm.trans ?_
      refine ((hdone.cons (pathParts f.path)).trans ?_)
      simpa using @List.perm_append_comm _ [pathParts f.path] done
    rw [List.map_cons, List.pairwise_cons] at hpw
    have hsep2 : ∀ g ∈ fs, ∀ r ∈ done ++ [pathParts f.path],
        r.isPrefixOf (pathParts g.path) = false ∧
        (pathParts g.path).isPrefixOf r = false := by
      intro g hg r hr
      rcases List.mem_append.mp hr with hr | hr
      · exact hsep g (List.mem_cons_of_mem _ hg) r hr
      · rcases List.mem_singleton.mp hr with rfl
        have := hpw.1 (pathParts g.path) (List.mem_map_of_mem _ hg)
        exact ⟨this.1, this.2⟩
    obtain ⟨tree, hfold, hfinal⟩ := ih m2 (done ++ [pathParts f.path]) hdone2
      (fun g hg => hne g (List.mem_cons_of_mem _ hg)) hsep2 hpw.2
    refine ⟨tree, ?_, ?_⟩
    · rw [List.foldlM_cons]
      rw [hins]
      exact hfold
    · refine hfinal.trans ?_
      simp [List.append_assoc]

theorem isPrefixOf_self_eq_true (l : List String) : l.isPrefixOf l = true := by
  simp [List.isPrefixOf_iff_prefix]

/-- C4 (amended): when the processed-file paths are pairwise non-nested
(no path's component list is a prefix of another's, which also forces the
paths to be distinct) and every path has at least one real component, the
tree rebuilt by build_filtered_file_tree exists and its leaf paths are
exactly the processed files' component lists, each exactly once - a
bijection between tree leaves and rendered file entries. -/
theorem filtered_tree_leaf_bijection (files : List ProcessedFile)
    (hne : ∀ f ∈ files, pathParts f.path ≠ [])
    (hpw : (files.map (fun f => pathParts f.path)).Pairwise
      (fun a b => a.isPrefixOf b = false ∧ b.isPrefixOf a = false)) :
    ∃ tree, buildFilteredFileTree files = some tree ∧
      (leafPathsList tree).Perm (files.map (fun f => pathParts f.path)) ∧
      (leafPathsList tree).Nodup := by
  obtain ⟨tree, hb, hp⟩ := buildFilteredFileTree_fold_perm files [] []
    (by simp [leafPathsList]) hne (by simp) hpw
  have hp2 : (leafPathsList tree).Perm (files.map (fun f => pathParts f.path)) := by
    simpa using hp
  refine ⟨tree, ?_, hp2, ?_⟩
  · unfold buildFilteredFileTree
    exact hb
  · refine hp2.nodup_iff.mpr ?_
    exact hpw.imp (fun h he => by
      subst he
      rw [isPrefixOf_self_eq_true] at h
      simp at h)

/-- C4 counterexample: for the processed files with paths "a/b" and "a"
(in that order), build_filtered_file_tree returns normally but the final
leaf write for "a" overwrites the directory holding "a/b", so the tree has
a single leaf while the files section renders two entries - no bijection.
-/
theorem filtered_tree_bijection_counterexample :
    buildFilteredFileTree
      [{ path := "a/b", content := "x" }, { path := "a", content := "y" }] =
      some [("a", FNode.file)] ∧
    leafPathsList [("a", FNode.file)] = [["a"]] ∧
    ¬ (leafPathsList [("a", FNode.file)]).Perm
      (([{ path := "a/b", content := "x" }, { path := "a", content := "y" }] :
        List ProcessedFile).map (fun f => pathParts f.path)) := by
  refine ⟨rfl, by simp [leafPathsList], ?_⟩
  intro h
  have := h.length_eq
  simp [leafPathsList, pathParts, splitOnChar, splitCharList] at this

theorem filtered_tree_bijection_witness :
    (∀ f ∈ ([{ path := "a/b", content := "x" }, { path := "c", content := "y" }] :
      List ProcessedFile), pathParts f.path ≠ []) ∧
    ∃ tree, buildFilteredFileTree
        [{ path := "a/b", content := "x" }, { path := "c", content := "y" }] = some tree ∧
      (leafPathsList tree).Perm
        (([{ path := "a/b", content := "x" }, { path := "c", content := "y" }] :
          List ProcessedFile).map (fun f => pathParts f.path)) ∧
      (leafPathsList tree).Nodup := by
  constructor
  · decide
  · exact filtered_tree_leaf_bijection
      [{ path := "a/b", content := "x" }, { path := "c", content := "y" }]
      (by decide) (by decide)

theorem joinLines_cons (a : String) (rest : List String) :
    joinLines (a :: rest) = if rest.isEmpty then a else a ++ "\n" ++ joinLines rest := by
  cases rest with
  | nil => rfl
  | cons b bs => rfl

theorem str_append_ne_empty_right (a b : String) (hb : b ≠ "") : a ++ b ≠ "" := by
  intro h
  apply hb
  have := congrArg String.length h
  rw [String.length_append] at this
  have hb0 : b.length = 0 := by
    simpa using Nat.eq_zero_of_add_eq_zero_left this
  cases b with
  | mk data =>
    cases data with
    | nil => rfl
    | cons c cs => simp [String.length] at hb0

theorem joinLines_ne_empty (lines : List String) (hne : lines ≠ [])
    (hl : ∀ l ∈ lines, l ≠ "") : joinLines lines ≠ "" := by
  cases lines with
  | nil => exact absurd rfl hne
  | cons a rest =>
    rw [joinLines_cons]
    by_cases h : rest.isEmpty
    · rw [if_pos h]
      exact hl a (List.mem_cons_self _ _)
    · rw [if_neg h]
      apply str_append_ne_empty_right
      apply joinLines_ne_empty rest (by simpa using h)
      intro l hlmem
      exact hl l (List.mem_cons_of_mem _ hlmem)

theorem joinLines_append_both (xs : List String) : ∀ ys, xs ≠ [] → ys ≠ [] →
    joinLines (xs ++ ys) = joinLines xs ++ "\n" ++ joinLines ys := by
  induction xs with
  | nil => intro ys h; exact absurd rfl h
  | cons a rest ih =>
    intro ys _ hy
    cases rest with
    | nil =>
      cases ys with
      | nil => exact absurd rfl hy
      | cons b bs => simp [joinLines]
    | cons c cs =>
      rw [List.cons_append, joinLines_cons, joinLines_cons]
      rw [if_neg (by simp), if_neg (by simp)]
      rw [ih ys (by simp) hy]
      simp [String.append_assoc]

theorem joinLines_append_congr (X Y : List String) (hXY : joinLines X = joinLines Y)
    (hempty : X = [] ↔ Y = []) :
    ∀ P : List String, joinLines (P ++ X) = joinLines (P ++ Y) := by
  intro P
  induction P with
  | nil => simpa using hXY
  | cons a rest ih =>
    rw [List.cons_append, List.cons_append, joinLines_cons, joinLines_cons]
    by_cases hx : X = []
    · have hy : Y = [] := hempty.mp hx
      subst hx; subst hy
      simp [ih]
    · have hy : Y ≠ [] := fun h => hx (hempty.mpr h)
      rw [if_neg (by simp [hx]), if_neg (by simp [hy]), ih]

theorem flatMap_line_chunks_ne_nil {α : Type} (lineOf : α → String) (g : α → List String)
    (L : List α) (hL : L ≠ []) : L.flatMap (fun x => lineOf x :: g x) ≠ [] := by
  cases L with
  | nil => exact absurd rfl hL
  | cons x rest => simp

theorem joinLines_chunk_head (c : String) (fl RA RB : List String)
    (hc : c = joinLines fl) (hfl : ∀ l ∈ fl, l ≠ "")
    (hjoin : joinLines RA = joinLines RB) (hemp : RA = [] ↔ RB = []) :
    joinLines ((if c = "" then [] else [c]) ++ RA) = joinLines (fl ++ RB) ∧
    (((if c = "" then [] else [c]) ++ RA) = [] ↔ (fl ++ RB) = []) := by
  by_cases hf : fl = []
  · have hce : c = "" := by rw [hc, hf]; rfl
    rw [if_pos hce]
    subst hf
    simp only [List.nil_append]
    exact ⟨hjoin, hemp⟩
  · have hce : c ≠ "" := by
      rw [hc]
      exact joinLines_ne_empty fl hf hfl
    rw [if_neg hce]
    constructor
    · by_cases hA : RA = []
      · have hB : RB = [] := hemp.mp hA
        subst hA; subst hB
        simp [joinLines, hc]
      · have hB : RB ≠ [] := fun h => hA (hemp.mpr h)
        rw [List.singleton_append, joinLines_cons, if_neg (by simpa using hA)]
        rw [joinLines_append_both fl RB hf hB, hc, hjoin]
    · constructor
      · intro h; simp at h
      · intro h
        rcases List.append_eq_nil.mp h with ⟨h1, _⟩
        exact absurd h1 hf

theorem joinLines_flatMap_chunks {α : Type} (lineOf chunkStr : α → String)
    (flat : α → List String) (tail : List String) :
    ∀ L : List α,
    (∀ x ∈ L, chunkStr x = joinLines (flat x) ∧ ∀ l ∈ flat x, l ≠ "") →
    joinLines (L.flatMap (fun x =>
        lineOf x :: (if chunkStr x = "" then [] else [chunkStr x])) ++ tail) =
      joinLines (L.flatMap (fun x => lineOf x :: flat x) ++ tail) ∧
    ((L.flatMap (fun x =>
        lineOf x :: (if chunkStr x = "" then [] else [chunkStr x])) ++ tail) = [] ↔
      (L.flatMap (fun x => lineOf x :: flat x) ++ tail) = []) := by
  intro L
  induction L with
  | nil => intro _; exact ⟨rfl, Iff.rfl⟩
  | cons x rest ih =>
    intro hall
    obtain ⟨hchunk, hlines⟩ := hall x (List.mem_cons_self _ _)
    obtain ⟨ihr, ihemp⟩ := ih (fun y hy => hall y (List.mem_cons_of_mem _ hy))
    simp only [List.flatMap_cons, List.cons_append, List.append_assoc]
    obtain ⟨hj, he⟩ := joinLines_chunk_head (chunkStr x) (flat x) _ _ hchunk hlines ihr ihemp
    constructor
    · conv_lhs => rw [joinLines_cons]
      conv_rhs => rw [joinLines_cons]
      rw [hj]
      by_cases hA : (if chunkStr x = "" then [] else [chunkStr x]) ++
          (rest.flatMap (fun y =>
            lineOf y :: (if chunkStr y = "" then [] else [chunkStr y])) ++ tail) = []
      · rw [List.isEmpty_iff.mpr hA, List.isEmpty_iff.mpr (he.mp hA)]
      · rw [List.isEmpty_eq_false.mpr hA, List.isEmpty_eq_false.mpr (fun h => hA (he.mpr h))]
    · simp

theorem mkTokenInfoStr_ne_empty (n : Int) : mkTokenInfoStr n ≠ "" :=
  str_append_ne_empty_right _ _ (by decide)

theorem noEntriesMessage_ne_empty (m : Int) : noEntriesMessage m ≠ "" :=
  str_append_ne_empty_right _ _ (by decide)

theorem renderFileLines_ne_empty (pref : String) (isRoot : Bool) (entriesEmpty : Bool) :
    ∀ fs : List FileTokenInfo, ∀ l ∈ renderFileLines pref isRoot entriesEmpty fs, l ≠ "" := by
  intro fs
  induction fs with
  | nil => intro l hl; simp [renderFileLines] at hl
  | cons f rest ih =>
    intro l hl
    rw [renderFileLines] at hl
    simp only [List.mem_cons] at hl
    rcases hl with rfl | hl
    · split
      · exact str_append_ne_empty_right _ _ (mkTokenInfoStr_ne_empty _)
      · exact str_append_ne_empty_right _ _ (mkTokenInfoStr_ne_empty _)
    · exact ih l hl

theorem formatTokenCountTree_eq_formatLines (node : TreeNode) :
    ∀ (minTokenCount : Int) (pref : String) (isRoot : Bool),
    formatTokenCountTree node minTokenCount pref isRoot =
      joinLines (formatLines node minTokenCount pref isRoot) ∧
    ∀ l ∈ formatLines node minTokenCount pref isRoot, l ≠ "" := by
  intro m pref isRoot
  have hyp : ∀ x ∈ (displayEntries m node).enum.attach,
      formatTokenCountTree x.1.2.2 m
        (if isRoot && pref = "" then
          (if x.1.1 = (displayEntries m node).length - 1 then "    " else "│   ")
         else pref ++ (if x.1.1 = (displayEntries m node).length - 1 then "    " else "│   "))
        false =
      joinLines (formatLines x.1.2.2 m
        (if isRoot && pref = "" then
          (if x.1.1 = (displayEntries m node).length - 1 then "    " else "│   ")
         else pref ++ (if x.1.1 = (displayEntries m node).length - 1 then "    " else "│   "))
        false) ∧
      ∀ l ∈ formatLines x.1.2.2 m
        (if isRoot && pref = "" then
          (if x.1.1 = (displayEntries m node).length - 1 then "    " else "│   ")
         else pref ++ (if x.1.1 = (displayEntries m node).length - 1 then "    " else "│   "))
        false, l ≠ "" := by
    intro x hx
    exact formatTokenCountTree_eq_formatLines x.1.2.2 m _ false
  rw [formatTokenCountTree, formatLines]
  simp only []
  constructor
  · rw [List.append_assoc, List.append_assoc]
    exact joinLines_append_congr _ _
      ((joinLines_flatMap_chunks _ _ _ _ _ hyp).1)
      ((joinLines_flatMap_chunks _ _ _ _ _ hyp).2) _
  · intro l hl
    rcases List.mem_append.mp hl with hl1 | hmsg
    · rcases List.mem_append.mp hl1 with hfl | hdl
      · exact renderFileLines_ne_empty _ _ _ _ l hfl
      · rcases List.mem_flatMap.mp hdl with ⟨x, hx, hin⟩
        rcases List.mem_cons.mp hin with rfl | hrec
        · split
          · exact str_append_ne_empty_right _ _ (mkTokenInfoStr_ne_empty _)
          · exact str_append_ne_empty_right _ _ (mkTokenInfoStr_ne_empty _)
        · exact (hyp x hx).2 l hrec
    · split at hmsg
      · rcases List.mem_singleton.mp hmsg with rfl
        split
        · exact noEntriesMessage_ne_empty m
        · decide
      · simp at hmsg
termination_by sizeOf node
decreasing_by
  have hmem := List.snd_mem_of_mem_enum x.2
  have hch := (List.mem_filter.mp (List.mem_mergeSort.mp hmem)).1
  have hlt := List.sizeOf_lt_of_mem hch
  have hsnd : sizeOf x.1.2.2 ≤ sizeOf x.1.2 := by
    obtain ⟨a, b⟩ := x.1.2
    simp
  have hnode : sizeOf node.children < sizeOf node := by
    cases node with
    | mk fs s ch => simp [TreeNode.children]
  omega

theorem str_empty_append (s : String) : "" ++ s = s := by
  cases s
  rfl

theorem treeFilesAll_mk (fs : List FileTokenInfo) (s : Int)
    (ch : List (String × TreeNode)) :
    treeFilesAll (TreeNode.mk fs s ch) = fs ++ treeFilesAll.treeFilesAllChildren ch := by
  rw [treeFilesAll]

theorem treeDirsAll_mk (fs : List FileTokenInfo) (s : Int)
    (ch : List (String × TreeNode)) :
    treeDirsAll (TreeNode.mk fs s ch) = ch ++ treeDirsAll.treeDirsAllChildren ch := by
  rw [treeDirsAll]

theorem mem_filesChildren_of_child (k : String) (c : TreeNode) (f : FileTokenInfo) :
    ∀ ch : List (String × TreeNode), (k, c) ∈ ch → f ∈ treeFilesAll c →
    f ∈ treeFilesAll.treeFilesAllChildren ch := by
  intro ch
  induction ch with
  | nil => intro h; simp at h
  | cons e rest ih =>
    intro hmem hf
    obtain ⟨k0, c0⟩ := e
    rw [treeFilesAll.treeFilesAllChildren]
    rcases List.mem_cons.mp hmem with heq | hmem2
    · rw [List.mem_append]
      exact Or.inl (by
        have : c0 = c := by injection heq with h1 h2; exact h2.symm
        rw [this]; exact hf)
    · exact List.mem_append.mpr (Or.inr (ih hmem2 hf))

theorem mem_dirsChildren_of_child (k : String) (c : TreeNode) (d : String × TreeNode) :
    ∀ ch : List (String × TreeNode), (k, c) ∈ ch → d ∈ treeDirsAll c →
    d ∈ treeDirsAll.treeDirsAllChildren ch := by
  intro ch
  induction ch with
  | nil => intro h; simp at h
  | cons e rest ih =>
    intro hmem hd
    obtain ⟨k0, c0⟩ := e
    rw [treeDirsAll.treeDirsAllChildren]
    rcases List.mem_cons.mp hmem with heq | hmem2
    · rw [List.mem_append]
      exact Or.inl (by
        have : c0 = c := by injection heq with h1 h2; exact h2.symm
        rw [this]; exact hd)
    · exact List.mem_append.mpr (Or.inr (ih hmem2 hd))

theorem mem_files_of_child (node : TreeNode) (k : String) (c : TreeNode)
    (hk : (k, c) ∈ node.children) (f : FileTokenInfo) (hf : f ∈ treeFilesAll c) :
    f ∈ treeFilesAll node := by
  cases node with
  | mk fs s ch =>
    rw [treeFilesAll_mk, List.mem_append]
    exact Or.inr (mem_filesChildren_of_child k c f ch (by simpa [TreeNode.children] using hk) hf)

theorem own_files_mem (node : TreeNode) (f : FileTokenInfo) (hf : f ∈ node.files) :
    f ∈ treeFilesAll node := by
  cases node with
  | mk fs s ch =>
    rw [treeFilesAll_mk, List.mem_append]
    exact Or.inl (by simpa [TreeNode.files] using hf)

theorem child_mem_dirsAll (node : TreeNode) (d : String × TreeNode)
    (hd : d ∈ node.children) : d ∈ treeDirsAll node := by
  cases node with
  | mk fs s ch =>
    rw [treeDirsAll_mk, List.mem_append]
    exact Or.inl (by simpa [TreeNode.children] using hd)

theorem mem_dirs_of_child (node : TreeNode) (k : String) (c : TreeNode)
    (hk : (k, c) ∈ node.children) (d : String × TreeNode) (hd : d ∈ treeDirsAll c) :
    d ∈ treeDirsAll node := by
  cases node with
  | mk fs s ch =>
    rw [treeDirsAll_mk, List.mem_append]
    exact Or.inr (mem_dirsChildren_of_child k c d ch (by simpa [TreeNode.children] using hk) hd)

theorem renderFileLines_sound (pref : String) (isRoot : Bool) (entriesEmpty : Bool) :
    ∀ fs : List FileTokenInfo, ∀ l ∈ renderFileLines pref isRoot entriesEmpty fs,
    ∃ f ∈ fs, ∃ pr cn, l = mkFileLine pr cn f.name f.tokens := by
  intro fs
  induction fs with
  | nil => intro l hl; simp [renderFileLines] at hl
  | cons f rest ih =>
    intro l hl
    rw [renderFileLines] at hl
    simp only [List.mem_cons] at hl
    rcases hl with rfl | hl
    · refine ⟨f, List.mem_cons_self _ _, ?_⟩
      split
      · exact ⟨"", _, by rw [mkFileLine, str_empty_append]⟩
      · exact ⟨pref, _, rfl⟩
    · obtain ⟨g, hg, pr, cn, hshape⟩ := ih l hl
      exact ⟨g, List.mem_cons_of_mem _ hg, pr, cn, hshape⟩

theorem renderFileLines_complete (pref : String) (isRoot : Bool) (entriesEmpty : Bool) :
    ∀ fs : List FileTokenInfo, ∀ f ∈ fs,
    ∃ l ∈ renderFileLines pref isRoot entriesEmpty fs,
      ∃ pr cn, l = mkFileLine pr cn f.name f.tokens := by
  intro fs
  induction fs with
  | nil => intro f hf; simp at hf
  | cons g rest ih =>
    intro f hf
    rw [renderFileLines]
    rcases List.mem_cons.mp hf with rfl | hf2
    · refine ⟨_, List.mem_cons_self _ _, ?_⟩
      split
      · exact ⟨"", _, by rw [mkFileLine, str_empty_append]⟩
      · exact ⟨pref, _, rfl⟩
    · obtain ⟨l, hl, hshape⟩ := ih f hf2
      exact ⟨l, List.mem_cons_of_mem _ hl, hshape⟩

theorem formatLines_sound (node : TreeNode) :
    ∀ (minTokenCount : Int) (pref : String) (isRoot : Bool),
    ∀ l ∈ formatLines node minTokenCount pref isRoot,
      (∃ f ∈ treeFilesAll node, minTokenCount ≤ f.tokens ∧
        ∃ pr cn, l = mkFileLine pr cn f.name f.tokens) ∨
      (∃ d ∈ treeDirsAll node, minTokenCount ≤ d.2.token_sum ∧
        ∃ pr cn, l = mkDirLine pr cn d.1 d.2.token_sum) ∨
      (isRoot = true ∧ 0 < minTokenCount ∧ l = noEntriesMessage minTokenCount) ∨
      (isRoot = true ∧ minTokenCount ≤ 0 ∧ l = "No files found.") := by
  intro m pref isRoot l hl
  rw [formatLines] at hl
  simp only [] at hl
  rcases List.mem_append.mp hl with hl1 | hmsg
  · rcases List.mem_append.mp hl1 with hfl | hdl
    · obtain ⟨f, hf, pr, cn, hshape⟩ := renderFileLines_sound _ _ _ _ l hfl
      have hf2 := List.mem_mergeSort.mp hf
      have hf3 := List.mem_filter.mp hf2
      exact Or.inl ⟨f, own_files_mem node f hf3.1, by simpa using hf3.2, pr, cn, hshape⟩
    · rcases List.mem_flatMap.mp hdl with ⟨x, hx, hin⟩
      have hmem := List.snd_mem_of_mem_enum x.2
      have hmem2 := List.mem_filter.mp (List.mem_mergeSort.mp hmem)
      rcases List.mem_cons.mp hin with rfl | hrec
      · refine Or.inr (Or.inl ⟨x.1.2, child_mem_dirsAll node x.1.2 hmem2.1,
          by simpa using hmem2.2, ?_⟩)
        split
        · exact ⟨"", _, by rw [mkDirLine, str_empty_append]⟩
        · exact ⟨pref, _, rfl⟩
      · have := formatLines_sound x.1.2.2 m _ false l hrec
        rcases this with ⟨f, hf, hge, hshape⟩ | ⟨d, hd, hge, hshape⟩ | ⟨hfalse, _⟩ | ⟨hfalse, _⟩
        · exact Or.inl ⟨f, mem_files_of_child node x.1.2.1 x.1.2.2 hmem2.1 f hf, hge, hshape⟩
        · exact Or.inr (Or.inl ⟨d, mem_dirs_of_child node x.1.2.1 x.1.2.2 hmem2.1 d hd,
            hge, hshape⟩)
        · simp at hfalse
        · simp at hfalse
  · split at hmsg
    next hcond =>
      rcases List.mem_singleton.mp hmsg with rfl
      have hroot : isRoot = true := by
        simp only [Bool.and_eq_true] at hcond
        exact hcond.1.1
      by_cases h0 : 0 < m
      · exact Or.inr (Or.inr (Or.inl ⟨hroot, h0, by rw [if_pos h0]⟩))
      · exact Or.inr (Or.inr (Or.inr ⟨hroot, by omega, by rw [if_neg h0]⟩))
    next hcond => simp at hmsg
termination_by sizeOf node
decreasing_by
  have hm1 := List.snd_mem_of_mem_enum x.2
  have hch := (List.mem_filter.mp (List.mem_mergeSort.mp hm1)).1
  have hlt := List.sizeOf_lt_of_mem hch
  have hsnd : sizeOf x.1.2.2 ≤ sizeOf x.1.2 := by
    obtain ⟨a, b⟩ := x.1.2
    simp
  have hnode : sizeOf node.children < sizeOf node := by
    cases node with
    | mk fs s ch => simp [TreeNode.children]
  omega

theorem sumInvariantChildren_elim :
    ∀ ch : List (String × TreeNode), sumInvariant.sumInvariantChildren ch →
    ∀ e ∈ ch, sumInvariant e.2 := by
  intro ch
  induction ch with
  | nil => intro _ e he; simp at he
  | cons e0 rest ih =>
    intro h e he
    obtain ⟨k0, c0⟩ := e0
    rw [sumInvariant.sumInvariantChildren] at h
    rcases List.mem_cons.mp he with rfl | he2
    · exact h.1
    · exact ih h.2 e he2

theorem sumInvariant_child (node : TreeNode) (h : sumInvariant node) :
    ∀ e ∈ node.children, sumInvariant e.2 := by
  cases node with
  | mk fs s ch =>
    rw [sumInvariant] at h
    exact sumInvariantChildren_elim ch h.2

theorem mem_filesChildren_elim (f : FileTokenInfo) :
    ∀ ch : List (String × TreeNode), f ∈ treeFilesAll.treeFilesAllChildren ch →
    ∃ e ∈ ch, f ∈ treeFilesAll e.2 := by
  intro ch
  induction ch with
  | nil => intro h; rw [treeFilesAll.treeFilesAllChildren] at h; simp at h
  | cons e0 rest ih =>
    intro h
    obtain ⟨k0, c0⟩ := e0
    rw [treeFilesAll.treeFilesAllChildren] at h
    rcases List.mem_append.mp h with h1 | h2
    · exact ⟨(k0, c0), List.mem_cons_self _ _, h1⟩
    · obtain ⟨e, he, hf⟩ := ih h2
      exact ⟨e, List.mem_cons_of_mem _ he, hf⟩

theorem mem_dirsChildren_elim (d : String × TreeNode) :
    ∀ ch : List (String × TreeNode), d ∈ treeDirsAll.treeDirsAllChildren ch →
    ∃ e ∈ ch, d ∈ treeDirsAll e.2 := by
  intro ch
  induction ch with
  | nil => intro h; rw [treeDirsAll.treeDirsAllChildren] at h; simp at h
  | cons e0 rest ih =>
    intro h
    obtain ⟨k0, c0⟩ := e0
    rw [treeDirsAll.treeDirsAllChildren] at h
    rcases List.mem_append.mp h with h1 | h2
    · exact ⟨(k0, c0), List.mem_cons_self _ _, h1⟩
    · obtain ⟨e, he, hf⟩ := ih h2
      exact ⟨e, List.mem_cons_of_mem _ he, hf⟩

mutual

theorem token_sum_eq_total (t : TreeNode) (h : sumInvariant t) :
    t.token_sum = treeTokensTotal t := by
  cases t with
  | mk fs s ch =>
    rw [sumInvariant] at h
    rw [TreeNode.token_sum, treeTokensTotal, h.1]
    rw [childrenSumTotal_eq_totalChildren ch h.2]

theorem childrenSumTotal_eq_totalChildren (ch : List (String × TreeNode))
    (h : sumInvariant.sumInvariantChildren ch) :
    childrenSumTotal ch = treeTokensTotal.treeTokensTotalChildren ch := by
  match ch with
  | [] =>
    rw [treeTokensTotal.treeTokensTotalChildren]
    rfl
  | (k, c) :: rest =>
    rw [sumInvariant.sumInvariantChildren] at h
    rw [treeTokensTotal.treeTokensTotalChildren]
    have h1 := token_sum_eq_total c h.1
    have h2 := childrenSumTotal_eq_totalChildren rest h.2
    simp only [childrenSumTotal, List.map_cons, List.sum_cons] at h2 ⊢
    rw [h1, h2]

end

theorem sumInvariant_dirsAll (t : TreeNode) (h : sumInvariant t) :
    ∀ d ∈ treeDirsAll t, sumInvariant d.2 := by
  intro d hd
  have hsplit : d ∈ t.children ∨ ∃ e ∈ t.children, d ∈ treeDirsAll e.2 := by
    cases t with
    | mk fs s ch =>
      rw [treeDirsAll_mk] at hd
      rcases List.mem_append.mp hd with h1 | h2
      · exact Or.inl (by simpa [TreeNode.children] using h1)
      · obtain ⟨e, he, hd2⟩ := mem_dirsChildren_elim d ch h2
        exact Or.inr ⟨e, by simpa [TreeNode.children] using he, hd2⟩
  rcases hsplit with h1 | ⟨e, he, hd2⟩
  · exact sumInvariant_child t h d h1
  · exact sumInvariant_dirsAll e.2 (sumInvariant_child t h e he) d hd2
termination_by sizeOf t
decreasing_by
  have h1 := List.sizeOf_lt_of_mem he
  have h2 : sizeOf e.2 ≤ sizeOf e := by
    obtain ⟨a, b⟩ := e
    simp
  have h3 : sizeOf t.children < sizeOf t := by
    cases t with
    | mk fs s ch => simp [TreeNode.children]
  omega

mutual

theorem total_nonneg (t : TreeNode)
    (hnn : ∀ f ∈ treeFilesAll t, 0 ≤ f.tokens) : 0 ≤ treeTokensTotal t := by
  cases t with
  | mk fs s ch =>
    rw [treeTokensTotal]
    have h1 : 0 ≤ (fs.map (fun f => f.tokens)).sum := by
      apply List.sum_nonneg
      intro x hx
      obtain ⟨f, hf, rfl⟩ := List.mem_map.mp hx
      exact hnn f (own_files_mem (TreeNode.mk fs s ch) f (by simpa [TreeNode.files] using hf))
    have h2 : 0 ≤ treeTokensTotal.treeTokensTotalChildren ch :=
      totalChildren_nonneg ch (fun e he f hf =>
        hnn f (mem_files_of_child (TreeNode.mk fs s ch) e.1 e.2
          (by simpa [TreeNode.children] using he) f hf))
    omega

theorem totalChildren_nonneg (ch : List (String × TreeNode))
    (hnn : ∀ e ∈ ch, ∀ f ∈ treeFilesAll e.2, 0 ≤ f.tokens) :
    0 ≤ treeTokensTotal.treeTokensTotalChildren ch := by
  match ch with
  | [] =>
    rw [treeTokensTotal.treeTokensTotalChildren]
  | (k, c) :: rest =>
    rw [treeTokensTotal.treeTokensTotalChildren]
    have h1 := total_nonneg c (fun f hf => hnn (k, c) (List.mem_cons_self _ _) f hf)
    have h2 := totalChildren_nonneg rest (fun e he f hf =>
      hnn e (List.mem_cons_of_mem _ he) f hf)
    omega

end

theorem treeTokensTotal_node (t : TreeNode) :
    treeTokensTotal t = (t.files.map (fun f => f.tokens)).sum +
      treeTokensTotal.treeTokensTotalChildren t.children := by
  cases t with
  | mk fs s ch => rw [treeTokensTotal, TreeNode.files, TreeNode.children]

theorem mem_treeFilesAll_elim (t : TreeNode) (f : FileTokenInfo)
    (h : f ∈ treeFilesAll t) :
    f ∈ t.files ∨ ∃ e ∈ t.children, f ∈ treeFilesAll e.2 := by
  cases t with
  | mk fs s ch =>
    rw [treeFilesAll_mk] at h
    rcases List.mem_append.mp h with h1 | h2
    · exact Or.inl (by simpa [TreeNode.files] using h1)
    · obtain ⟨e, he, hf⟩ := mem_filesChildren_elim f ch h2
      exact Or.inr ⟨e, by simpa [TreeNode.children] using he, hf⟩

theorem mem_treeDirsAll_elim (t : TreeNode) (d : String × TreeNode)
    (h : d ∈ treeDirsAll t) :
    d ∈ t.children ∨ ∃ e ∈ t.children, d ∈ treeDirsAll e.2 := by
  cases t with
  | mk fs s ch =>
    rw [treeDirsAll_mk] at h
    rcases List.mem_append.mp h with h1 | h2
    · exact Or.inl (by simpa [TreeNode.children] using h1)
    · obtain ⟨e, he, hd⟩ := mem_dirsChildren_elim d ch h2
      exact Or.inr ⟨e, by simpa [TreeNode.children] using he, hd⟩

theorem total_le_totalChildren :
    ∀ ch : List (String × TreeNode),
    (∀ e ∈ ch, ∀ f ∈ treeFilesAll e.2, 0 ≤ f.tokens) →
    ∀ e ∈ ch, treeTokensTotal e.2 ≤ treeTokensTotal.treeTokensTotalChildren ch := by
  intro ch
  induction ch with
  | nil => intro _ e he; simp at he
  | cons e0 rest ih =>
    intro hnn e he
    obtain ⟨k0, c0⟩ := e0
    rw [treeTokensTotal.treeTokensTotalChildren]
    rcases List.mem_cons.mp he with rfl | he2
    · have h2 := totalChildren_nonneg rest (fun e' he' => hnn e' (List.mem_cons_of_mem _ he'))
      have h3 : treeTokensTotal ((k0, c0) : String × TreeNode).2 = treeTokensTotal c0 := rfl
      omega
    · have h1 := total_nonneg c0 (fun f hf => hnn (k0, c0) (List.mem_cons_self _ _) f hf)
      have h2 := ih (fun e' he' => hnn e' (List.mem_cons_of_mem _ he')) e he2
      omega

theorem hnn_child (t : TreeNode) (hnn : ∀ f ∈ treeFilesAll t, 0 ≤ f.tokens) :
    ∀ e ∈ t.children, ∀ f ∈ treeFilesAll e.2, 0 ≤ f.tokens :=
  fun e he f hf => hnn f (mem_files_of_child t e.1 e.2 he f hf)

theorem file_tokens_le_total (t : TreeNode) (hnn : ∀ f ∈ treeFilesAll t, 0 ≤ f.tokens) :
    ∀ f ∈ treeFilesAll t, f.tokens ≤ treeTokensTotal t := by
  intro f hf
  rw [treeTokensTotal_node]
  rcases mem_treeFilesAll_elim t f hf with h1 | ⟨e, he, hf2⟩
  · have hle : f.tokens ≤ (t.files.map (fun g => g.tokens)).sum := by
      apply List.single_le_sum
      · intro x hx
        obtain ⟨g, hg, rfl⟩ := List.mem_map.mp hx
        exact hnn g (own_files_mem t g hg)
      · exact List.mem_map_of_mem _ h1
    have h2 := totalChildren_nonneg t.children (hnn_child t hnn)
    omega
  · have h1 := file_tokens_le_total e.2 (hnn_child t hnn e he) f hf2
    have h2 := total_le_totalChildren t.children (hnn_child t hnn) e he
    have h3 : 0 ≤ (t.files.map (fun g => g.tokens)).sum := by
      apply List.sum_nonneg
      intro x hx
      obtain ⟨g, hg, rfl⟩ := List.mem_map.mp hx
      exact hnn g (own_files_mem t g hg)
    omega
termination_by sizeOf t
decreasing_by
  have h1 := List.sizeOf_lt_of_mem he
  have h2 : sizeOf e.2 ≤ sizeOf e := by
    obtain ⟨a, b⟩ := e
    simp
  have h3 : sizeOf t.children < sizeOf t := by
    cases t with
    | mk fs s ch => simp [TreeNode.children]
  omega

theorem dir_total_le_total (t : TreeNode) (hnn : ∀ f ∈ treeFilesAll t, 0 ≤ f.tokens) :
    ∀ d ∈ treeDirsAll t, treeTokensTotal d.2 ≤ treeTokensTotal t := by
  intro d hd
  rcases mem_treeDirsAll_elim t d hd with h1 | ⟨e, he, hd2⟩
  · have h2 := total_le_totalChildren t.children (hnn_child t hnn) d h1
    have h3 : 0 ≤ (t.files.map (fun g => g.tokens)).sum := by
      apply List.sum_nonneg
      intro x hx
      obtain ⟨g, hg, rfl⟩ := List.mem_map.mp hx
      exact hnn g (own_files_mem t g hg)
    rw [treeTokensTotal_node t]
    omega
  · have h1 := dir_total_le_total e.2 (hnn_child t hnn e he) d hd2
    have h2 := total_le_totalChildren t.children (hnn_child t hnn) e he
    have h3 : 0 ≤ (t.files.map (fun g => g.tokens)).sum := by
      apply List.sum_nonneg
      intro x hx
      obtain ⟨g, hg, rfl⟩ := List.mem_map.mp hx
      exact hnn g (own_files_mem t g hg)
    rw [treeTokensTotal_node t]
    omega
termination_by sizeOf t
decreasing_by
  have h1 := List.sizeOf_lt_of_mem he
  have h2 : sizeOf e.2 ≤ sizeOf e := by
    obtain ⟨a, b⟩ := e
    simp
  have h3 : sizeOf t.children < sizeOf t := by
    cases t with
    | mk fs s ch => simp [TreeNode.children]
  omega

theorem exists_enum_mem {α : Type} (l : List α) (a : α) (ha : a ∈ l) :
    ∃ i, (i, a) ∈ l.enum := by
  obtain ⟨i, hi, hget⟩ := List.mem_iff_getElem.mp ha
  refine ⟨i, ?_⟩
  rw [List.mem_enum_iff_getElem?]
  rw [List.getElem?_eq_getElem hi, hget]

theorem formatLines_complete (node : TreeNode) (hinv : sumInvariant node)
    (hnn : ∀ f ∈ treeFilesAll node, 0 ≤ f.tokens) :
    ∀ (m : Int) (pref : String) (isRoot : Bool),
    (∀ f ∈ treeFilesAll node, m ≤ f.tokens →
      ∃ l ∈ formatLines node m pref isRoot, ∃ pr cn, l = mkFileLine pr cn f.name f.tokens) ∧
    (∀ d ∈ treeDirsAll node, m ≤ d.2.token_sum →
      ∃ l ∈ formatLines node m pref isRoot, ∃ pr cn, l = mkDirLine pr cn d.1 d.2.token_sum) := by
  intro m pref isRoot
  constructor
  · intro f hf hge
    rcases mem_treeFilesAll_elim node f hf with h1 | ⟨e, he, hf2⟩
    · have hdf : f ∈ displayFiles m node :=
        List.mem_mergeSort.mpr (List.mem_filter.mpr ⟨h1, by simpa using hge⟩)
      obtain ⟨l, hl, hshape⟩ := renderFileLines_complete pref isRoot
        (displayEntries m node).isEmpty (displayFiles m node) f hdf
      refine ⟨l, ?_, hshape⟩
      rw [formatLines]
      simp only []
      exact List.mem_append.mpr (Or.inl (List.mem_append.mpr (Or.inl hl)))
    · have hinvc : sumInvariant e.2 := sumInvariant_child node hinv e he
      have hnnc : ∀ g ∈ treeFilesAll e.2, 0 ≤ g.tokens := hnn_child node hnn e he
      have hts : m ≤ e.2.token_sum := by
        have hb := file_tokens_le_total e.2 hnnc f hf2
        have heq := token_sum_eq_total e.2 hinvc
        omega
      have hde : e ∈ displayEntries m node :=
        List.mem_mergeSort.mpr (List.mem_filter.mpr ⟨he, by simpa using hts⟩)
      obtain ⟨i, henum⟩ := exists_enum_mem _ _ hde
      obtain ⟨l, hl, hshape⟩ := (formatLines_complete e.2 hinvc hnnc m
        (if isRoot && pref = "" then
          (if i = (displayEntries m node).length - 1 then "    " else "│   ")
        else pref ++ (if i = (displayEntries m node).length - 1 then "    " else "│   "))
        false).1 f hf2 hge
      refine ⟨l, ?_, hshape⟩
      rw [formatLines]
      simp only []
      refine List.mem_append.mpr (Or.inl (List.mem_append.mpr (Or.inr ?_)))
      refine List.mem_flatMap.mpr ⟨⟨(i, e), henum⟩, List.mem_attach _ _, ?_⟩
      exact List.mem_cons_of_mem _ hl
  · intro d hd hge
    rcases mem_treeDirsAll_elim node d hd with h1 | ⟨e, he, hd2⟩
    · have hde : d ∈ displayEntries m node :=
        List.mem_mergeSort.mpr (List.mem_filter.mpr ⟨h1, by simpa using hge⟩)
      obtain ⟨i, henum⟩ := exists_enum_mem _ _ hde
      refine ⟨if isRoot && pref = "" then
          (if i = (displayEntries m node).length - 1 then "└── " else "├── ") ++ d.1 ++ "/ " ++
            mkTokenInfoStr d.2.token_sum
        else pref ++ (if i = (displayEntries m node).length - 1 then "└── " else "├── ") ++ d.1 ++
          "/ " ++ mkTokenInfoStr d.2.token_sum, ?_, ?_⟩
      · rw [formatLines]
        simp only []
        refine List.mem_append.mpr (Or.inl (List.mem_append.mpr (Or.inr ?_)))
        refine List.mem_flatMap.mpr ⟨⟨(i, d), henum⟩, List.mem_attach _ _, ?_⟩
        exact List.mem_cons_self _ _
      · split
        · exact ⟨"", _, by rw [mkDirLine, str_empty_append]⟩
        · exact ⟨pref, _, rfl⟩
    · have hinvc : sumInvariant e.2 := sumInvariant_child node hinv e he
      have hnnc : ∀ g ∈ treeFilesAll e.2, 0 ≤ g.tokens := hnn_child node hnn e he
      have hts : m ≤ e.2.token_sum := by
        have hinvd : sumInvariant d.2 := sumInvariant_dirsAll e.2 hinvc d hd2
        have heqd := token_sum_eq_total d.2 hinvd
        have hb := dir_total_le_total e.2 hnnc d hd2
        have heq := token_sum_eq_total e.2 hinvc
        omega
      have hde : e ∈ displayEntries m node :=
        List.mem_mergeSort.mpr (List.mem_filter.mpr ⟨he, by simpa using hts⟩)
      obtain ⟨i, henum⟩ := exists_enum_mem _ _ hde
      obtain ⟨l, hl, hshape⟩ := (formatLines_complete e.2 hinvc hnnc m
        (if isRoot && pref = "" then
          (if i = (displayEntries m node).length - 1 then "    " else "│   ")
        else pref ++ (if i = (displayEntries m node).length - 1 then "    " else "│   "))
        false).2 d hd2 hge
      refine ⟨l, ?_, hshape⟩
      rw [formatLines]
      simp only []
      refine List.mem_append.mpr (Or.inl (List.mem_append.mpr (Or.inr ?_)))
      refine List.mem_flatMap.mpr ⟨⟨(i, e), henum⟩, List.mem_attach _ _, ?_⟩
      exact List.mem_cons_of_mem _ hl
termination_by sizeOf node
decreasing_by
  all_goals {
    have h1 := List.sizeOf_lt_of_mem he
    have h2 : sizeOf e.2 ≤ sizeOf e := by
      obtain ⟨a, b⟩ := e
      simp
    have h3 : sizeOf node.children < sizeOf node := by
      cases node with
      | mk fs s ch => simp [TreeNode.children]
    omega
  }

mutual

theorem treeFilesAll_calc (t : TreeNode) :
    treeFilesAll (calcTokenSums t) = treeFilesAll t := by
  cases t with
  | mk fs s ch =>
    rw [calcTokenSums]
    rw [treeFilesAll_mk, treeFilesAll_mk, treeFilesAllChildren_calc ch]

theorem treeFilesAllChildren_calc (ch : List (String × TreeNode)) :
    treeFilesAll.treeFilesAllChildren (calcTokenSums.calcChildren ch) =
      treeFilesAll.treeFilesAllChildren ch := by
  match ch with
  | [] => rw [calcTokenSums.calcChildren]
  | (k, c) :: rest =>
    rw [calcTokenSums.calcChildren]
    rw [treeFilesAll.treeFilesAllChildren, treeFilesAll.treeFilesAllChildren]
    rw [treeFilesAll_calc c, treeFilesAllChildren_calc rest]

end

theorem treeFilesAllChildren_append (a : List (String × TreeNode)) :
    ∀ b, treeFilesAll.treeFilesAllChildren (a ++ b) =
      treeFilesAll.treeFilesAllChildren a ++ treeFilesAll.treeFilesAllChildren b := by
  induction a with
  | nil =>
    intro b
    rw [List.nil_append, treeFilesAll.treeFilesAllChildren, List.nil_append]
  | cons e rest ih =>
    intro b
    obtain ⟨k, c⟩ := e
    rw [List.cons_append, treeFilesAll.treeFilesAllChildren,
      treeFilesAll.treeFilesAllChildren, ih b, List.append_assoc]

theorem mem_filesChildren_setChild (k : String) (v : TreeNode) (f : FileTokenInfo) :
    ∀ ch : List (String × TreeNode),
    f ∈ treeFilesAll.treeFilesAllChildren (setChild ch k v) →
    f ∈ treeFilesAll v ∨ f ∈ treeFilesAll.treeFilesAllChildren ch := by
  intro ch
  induction ch with
  | nil =>
    intro h
    rw [setChild, treeFilesAll.treeFilesAllChildren, treeFilesAll.treeFilesAllChildren] at h
    rw [List.append_nil] at h
    exact Or.inl h
  | cons e rest ih =>
    intro h
    obtain ⟨k0, c0⟩ := e
    rw [setChild] at h
    split at h
    · rw [treeFilesAll.treeFilesAllChildren] at h
      rcases List.mem_append.mp h with h1 | h2
      · exact Or.inl h1
      · exact Or.inr (by rw [treeFilesAll.treeFilesAllChildren]; exact List.mem_append.mpr (Or.inr h2))
    · rw [treeFilesAll.treeFilesAllChildren] at h
      rcases List.mem_append.mp h with h1 | h2
      · exact Or.inr (by rw [treeFilesAll.treeFilesAllChildren]; exact List.mem_append.mpr (Or.inl h1))
      · rcases ih h2 with hv | hrest
        · exact Or.inl hv
        · exact Or.inr (by rw [treeFilesAll.treeFilesAllChildren]; exact List.mem_append.mpr (Or.inr hrest))

theorem lookupChild_files (k : String) (c : TreeNode) :
    ∀ ch : List (String × TreeNode), lookupChild ch k = some c →
    ∀ f ∈ treeFilesAll c, f ∈ treeFilesAll.treeFilesAllChildren ch := by
  intro ch
  induction ch with
  | nil => intro hl; rw [lookupChild] at hl; exact absurd hl (by simp)
  | cons e rest ih =>
    intro hl f hf
    obtain ⟨k0, c0⟩ := e
    rw [lookupChild] at hl
    rw [treeFilesAll.treeFilesAllChildren]
    split at hl
    · rcases Option.some.inj hl with rfl
      exact List.mem_append.mpr (Or.inl hf)
    · exact List.mem_append.mpr (Or.inr (ih hl f hf))

theorem treeFilesAll_empty : treeFilesAll emptyTreeNode = [] := by
  rw [emptyTreeNode, treeFilesAll_mk, treeFilesAll.treeFilesAllChildren, List.append_nil]

theorem mem_insertTokenFile (parts : List String) :
    ∀ (t : TreeNode) (info f : FileTokenInfo),
    f ∈ treeFilesAll (insertTokenFile t parts info) → f = info ∨ f ∈ treeFilesAll t := by
  induction parts with
  | nil =>
    intro t info f h
    cases t with
    | mk fs s ch =>
      rw [insertTokenFile, treeFilesAll_mk] at h
      rw [treeFilesAll_mk]
      rcases List.mem_append.mp h with h1 | h2
      · rcases List.mem_append.mp h1 with ha | hb
        · exact Or.inr (List.mem_append.mpr (Or.inl ha))
        · exact Or.inl (List.mem_singleton.mp hb)
      · exact Or.inr (List.mem_append.mpr (Or.inr h2))
  | cons part rest ih =>
    intro t info f h
    cases t with
    | mk fs s ch =>
      rw [insertTokenFile] at h
      rcases hlk : lookupChild ch part with _ | child
      · rw [hlk] at h
        simp only [] at h
        rw [treeFilesAll_mk, treeFilesAllChildren_append] at h
        rw [treeFilesAll_mk]
        rcases List.mem_append.mp h with h1 | h2
        · exact Or.inr (List.mem_append.mpr (Or.inl h1))
        · rcases List.mem_append.mp h2 with ha | hb
          · exact Or.inr (List.mem_append.mpr (Or.inr ha))
          · rw [treeFilesAll.treeFilesAllChildren, treeFilesAll.treeFilesAllChildren,
              List.append_nil] at hb
            rcases ih emptyTreeNode info f hb with heq | hemp
            · exact Or.inl heq
            · rw [treeFilesAll_empty] at hemp
              exact absurd hemp (by simp)
      · rw [hlk] at h
        simp only [] at h
        rw [treeFilesAll_mk] at h
        rw [treeFilesAll_mk]
        rcases List.mem_append.mp h with h1 | h2
        · exact Or.inr (List.mem_append.mpr (Or.inl h1))
        · rcases mem_filesChildren_setChild part _ f ch h2 with hv | hrest
          · rcases ih child info f hv with heq | hc
            · exact Or.inl heq
            · exact Or.inr (List.mem_append.mpr
                (Or.inr (lookupChild_files part child ch hlk f hc)))
          · exact Or.inr (List.mem_append.mpr (Or.inr hrest))

theorem mem_addFileWithTokens (root : TreeNode) (file : FileWithTokens) (f : FileTokenInfo)
    (h : f ∈ treeFilesAll (addFileWithTokens root file)) :
    f.tokens = file.tokens ∨ f ∈ treeFilesAll root := by
  rw [addFileWithTokens] at h
  split at h
  · exact Or.inr h
  · simp only [] at h
    split at h
    · exact Or.inr h
    · rcases mem_insertTokenFile _ root _ f h with rfl | h2
      · exact Or.inl rfl
      · exact Or.inr h2

theorem fold_addFiles_nonneg (filesWithTokens : List FileWithTokens) :
    ∀ root : TreeNode, (∀ g ∈ filesWithTokens, 0 ≤ g.tokens) →
    (∀ f ∈ treeFilesAll root, 0 ≤ f.tokens) →
    ∀ f ∈ treeFilesAll (filesWithTokens.foldl addFileWithTokens root), 0 ≤ f.tokens := by
  induction filesWithTokens with
  | nil => intro root _ hroot f hf; exact hroot f (by simpa using hf)
  | cons g rest ih =>
    intro root hg hroot f hf
    rw [List.foldl_cons] at hf
    refine ih (addFileWithTokens root g) (fun g' hg' => hg g' (List.mem_cons_of_mem _ hg')) ?_ f hf
    intro f' hf'
    rcases mem_addFileWithTokens root g f' hf' with heq | hin
    · rw [heq]
      exact hg g (List.mem_cons_self _ _)
    · exact hroot f' hin

theorem build_tree_files_nonneg (filesWithTokens : List FileWithTokens)
    (hnn : ∀ g ∈ filesWithTokens, 0 ≤ g.tokens) :
    ∀ f ∈ treeFilesAll (buildTokenCountTree filesWithTokens), 0 ≤ f.tokens := by
  intro f hf
  rw [buildTokenCountTree, treeFilesAll_calc] at hf
  refine fold_addFiles_nonneg filesWithTokens emptyTreeNode hnn ?_ f hf
  intro f' hf'
  rw [treeFilesAll_empty] at hf'
  exact absurd hf' (by simp)

theorem buildTokenCountTree_nil : buildTokenCountTree [] = TreeNode.mk [] 0 [] := by
  rw [buildTokenCountTree, List.foldl_nil, emptyTreeNode, calcTokenSums,
    calcTokenSums.calcChildren]
  simp [childrenSumTotal]

theorem formatTokenCountTree_nil_eval :
    formatTokenCountTree (buildTokenCountTree []) 0 "" true = "No files found." := by
  rw [buildTokenCountTree_nil, formatTokenCountTree]
  rw [show displayEntries 0 (TreeNode.mk [] 0 []) = [] from by
    simp [displayEntries, TreeNode.children, List.mergeSort_nil]]
  rw [show displayFiles 0 (TreeNode.mk [] 0 []) = [] from by
    simp [displayFiles, TreeNode.files, List.mergeSort_nil]]
  simp [renderFileLines, joinLines, List.enum_nil, List.attach_nil, List.flatMap_nil]

theorem files_of_dirsAll (t : TreeNode) (d : String × TreeNode) (hd : d ∈ treeDirsAll t) :
    ∀ g ∈ treeFilesAll d.2, g ∈ treeFilesAll t := by
  intro g hg
  rcases mem_treeDirsAll_elim t d hd with h1 | ⟨e, he, hd2⟩
  · exact mem_files_of_child t d.1 d.2 h1 g hg
  · exact mem_files_of_child t e.1 e.2 he g (files_of_dirsAll e.2 d hd2 g hg)
termination_by sizeOf t
decreasing_by
  have h1 := List.sizeOf_lt_of_mem he
  have h2 : sizeOf e.2 ≤ sizeOf e := by
    obtain ⟨a, b⟩ := e
    simp
  have h3 : sizeOf t.children < sizeOf t := by
    cases t with
    | mk fs s ch => simp [TreeNode.children]
  omega

/-- C9: For every input file list (with nonnegative token counts, as real
token counts are) and every threshold m, format_token_count_tree on the
built token tree renders exactly the joined line list in which (soundness)
every line is a file line for a file with tokens ≥ m, a directory line for
a directory with token_sum ≥ m showing that token_sum, or a root-level
message, and (completeness) every file with tokens ≥ m and every directory
with token_sum ≥ m contributes such a line; every directory's displayed
token_sum is the full recomputed token total of its subtree, independent
of the threshold (the threshold filters display only, and at threshold 0
nothing is hidden since all counts are ≥ 0); and the empty input at
threshold 0 renders exactly "No files found.". -/
theorem format_token_tree_threshold_display
    (filesWithTokens : List FileWithTokens)
    (hnn : ∀ g ∈ filesWithTokens, 0 ≤ g.tokens) (m : Int) :
    (formatTokenCountTree (buildTokenCountTree filesWithTokens) m "" true =
      joinLines (formatLines (buildTokenCountTree filesWithTokens) m "" true)) ∧
    (∀ l ∈ formatLines (buildTokenCountTree filesWithTokens) m "" true,
      (∃ f ∈ treeFilesAll (buildTokenCountTree filesWithTokens), m ≤ f.tokens ∧
        ∃ pr cn, l = mkFileLine pr cn f.name f.tokens) ∨
      (∃ d ∈ treeDirsAll (buildTokenCountTree filesWithTokens), m ≤ d.2.token_sum ∧
        ∃ pr cn, l = mkDirLine pr cn d.1 d.2.token_sum) ∨
      (0 < m ∧ l = noEntriesMessage m) ∨
      (m ≤ 0 ∧ l = "No files found.")) ∧
    (∀ f ∈ treeFilesAll (buildTokenCountTree filesWithTokens), m ≤ f.tokens →
      ∃ l ∈ formatLines (buildTokenCountTree filesWithTokens) m "" true,
        ∃ pr cn, l = mkFileLine pr cn f.name f.tokens) ∧
    (∀ d ∈ treeDirsAll (buildTokenCountTree filesWithTokens), m ≤ d.2.token_sum →
      ∃ l ∈ formatLines (buildTokenCountTree filesWithTokens) m "" true,
        ∃ pr cn, l = mkDirLine pr cn d.1 d.2.token_sum) ∧
    (∀ d ∈ treeDirsAll (buildTokenCountTree filesWithTokens),
      d.2.token_sum = treeTokensTotal d.2 ∧ 0 ≤ d.2.token_sum) ∧
    ((buildTokenCountTree filesWithTokens).token_sum =
      treeTokensTotal (buildTokenCountTree filesWithTokens)) ∧
    (formatTokenCountTree (buildTokenCountTree []) 0 "" true = "No files found.") := by
  have hinv : sumInvariant (buildTokenCountTree filesWithTokens) := by
    rw [buildTokenCountTree]
    exact calcTokenSums_invariant _
  have hnnt := build_tree_files_nonneg filesWithTokens hnn
  refine ⟨(formatTokenCountTree_eq_formatLines _ m "" true).1, ?_,
    (formatLines_complete _ hinv hnnt m "" true).1,
    (formatLines_complete _ hinv hnnt m "" true).2, ?_, token_sum_eq_total _ hinv,
    formatTokenCountTree_nil_eval⟩
  · intro l hl
    rcases formatLines_sound _ m "" true l hl with h | h | ⟨_, h0, heq⟩ | ⟨_, h0, heq⟩
    · exact Or.inl h
    · exact Or.inr (Or.inl h)
    · exact Or.inr (Or.inr (Or.inl ⟨h0, heq⟩))
    · exact Or.inr (Or.inr (Or.inr ⟨h0, heq⟩))
  · intro d hd
    have hinvd := sumInvariant_dirsAll _ hinv d hd
    have heq := token_sum_eq_total d.2 hinvd
    have hnnd : ∀ g ∈ treeFilesAll d.2, 0 ≤ g.tokens := by
      intro g hg
      exact hnnt g (files_of_dirsAll _ d hd g hg)
    have hpos := total_nonneg d.2 hnnd
    exact ⟨heq, by omega⟩

theorem format_token_tree_threshold_display_witness :
    (∀ g ∈ [({ path := "a/b.txt", tokens := 3 } : FileWithTokens)], (0 : Int) ≤ g.tokens) ∧
    formatTokenCountTree (buildTokenCountTree [{ path := "a/b.txt", tokens := 3 }]) 0 "" true =
      joinLines (formatLines (buildTokenCountTree [{ path := "a/b.txt", tokens := 3 }]) 0 "" true) :=
  ⟨by decide,
    (format_token_tree_threshold_display [{ path := "a/b.txt", tokens := 3 }] (by decide) 0).1⟩
